import Mathlib

/-!
Verification of the kimiconfig configuration engine
(`src/kimiconfig/config.py`) against its natural-language specification.

The Python data model is shallowly embedded: a YAML/JSON-style value is a
`Val`; Python `dict`s are insertion-ordered association lists over string
keys (`AList`); mutation is modelled by explicit state passing.  Python
`float` literals are represented by the exact decimal value they denote
(none of the verified claims depends on IEEE-754 rounding, and floats only
ever flow through the engine unchanged).
-/

set_option maxHeartbeats 1000000

namespace Kimiconfig

/-- A parsed Python float, represented exactly by its decimal mantissa and
power-of-ten exponent (the value `mantissa * 10 ^ exp10`).  No claim
depends on IEEE-754 rounding, and float values only ever flow through the
engine unchanged. -/
structure PyFloat where
  mantissa : Int
  exp10 : Int
  deriving DecidableEq

/-- A configuration value: the closed set of leaf/node types that the engine
stores in its mappings (bool, int, float, string, null, sequence, mapping). -/
inductive Val where
  | vBool : Bool → Val
  | vInt : Int → Val
  | vFloat : PyFloat → Val
  | vStr : String → Val
  | vNull : Val
  | vList : List Val → Val
  | vDict : List (String × Val) → Val

/-- A Python dict with string keys, as an insertion-ordered association list. -/
abbrev AList := List (String × Val)

/-- Whether a value is a mapping (`isinstance(v, dict)` in the source). -/
def Val.isDict : Val → Bool
  | .vDict _ => true
  | _ => false

/-- Python `d.get(k)` / `d[k]`: first entry with the given key. -/
def dlook : AList → String → Option Val
  | [], _ => none
  | (k, v) :: rest, key => if k = key then some v else dlook rest key

/-- Python `d[k] = v`: replace the value at an existing key in place (keeping
its position), or append a fresh entry at the end (dict insertion order). -/
def dset : AList → String → Val → AList
  | [], key, v => [(key, v)]
  | (k, w) :: rest, key, v =>
      if k = key then (k, v) :: rest else (k, w) :: dset rest key v

/-- The keys of a dict, in order. -/
def dkeys (d : AList) : List String := d.map Prod.fst

/-- Models `Config._deep_update` (config.py:272-289), value-level: recursively
updates dictionary `d` with data from dictionary `u`.  For each entry of `u`
in order: mapping values merge recursively (a missing or non-mapping target
slot becomes a fresh empty dict first, discarding any non-mapping value),
every other value overwrites the slot. -/
def deepUpdate : AList → AList → AList
  | d, [] => d
  | d, (k, Val.vDict uv) :: rest =>
      deepUpdate
        (dset d k
          (match dlook d k with
           | some (Val.vDict dv) => Val.vDict (deepUpdate dv uv)
           | some _ => Val.vDict uv
           | none => Val.vDict (deepUpdate [] uv))) rest
  | d, (k, v) :: rest => deepUpdate (dset d k v) rest
termination_by d u => sizeOf u
decreasing_by all_goals (simp_wf; try omega)

@[simp] theorem deepUpdate_nil (d : AList) : deepUpdate d [] = d := by
  rw [deepUpdate]

theorem deepUpdate_cons_dict_dict (d : AList) (k : String) (uv dv : AList)
    (rest : AList) (h : dlook d k = some (Val.vDict dv)) :
    deepUpdate d ((k, Val.vDict uv) :: rest) =
      deepUpdate (dset d k (Val.vDict (deepUpdate dv uv))) rest := by
  rw [deepUpdate, h]

theorem deepUpdate_cons_dict_none (d : AList) (k : String) (uv : AList)
    (rest : AList) (h : dlook d k = none) :
    deepUpdate d ((k, Val.vDict uv) :: rest) =
      deepUpdate (dset d k (Val.vDict (deepUpdate [] uv))) rest := by
  rw [deepUpdate, h]

theorem deepUpdate_cons_dict_leaf (d : AList) (k : String) (uv : AList)
    (rest : AList) (w : Val) (h : dlook d k = some w) (hw : w.isDict = false) :
    deepUpdate d ((k, Val.vDict uv) :: rest) =
      deepUpdate (dset d k (Val.vDict uv)) rest := by
  rw [deepUpdate, h]
  cases w <;> simp [Val.isDict] at hw ⊢

theorem deepUpdate_cons_leaf (d : AList) (k : String) (v : Val)
    (rest : AList) (hv : v.isDict = false) :
    deepUpdate d ((k, v) :: rest) = deepUpdate (dset d k v) rest := by
  cases v <;> simp [Val.isDict] at hv ⊢ <;> (rw [deepUpdate] <;> simp)

/-- The value `_deep_update` stores at key `k` when it processes the source
entry `(k, v)` against target `d` (one loop iteration of config.py:281-289). -/
def mergedEntry (d : AList) (k : String) (v : Val) : Val :=
  match v, dlook d k with
  | .vDict uv, some (.vDict dv) => .vDict (deepUpdate dv uv)
  | .vDict uv, some _ => .vDict uv
  | .vDict uv, none => .vDict (deepUpdate [] uv)
  | w, _ => w

theorem deepUpdate_cons (d : AList) (k : String) (v : Val) (rest : AList) :
    deepUpdate d ((k, v) :: rest) =
      deepUpdate (dset d k (mergedEntry d k v)) rest := by
  cases v with
  | vDict uv =>
    cases h : dlook d k with
    | none =>
      rw [deepUpdate_cons_dict_none d k uv rest h]
      simp only [mergedEntry, h]
    | some w =>
      cases w with
      | vDict dv =>
        rw [deepUpdate_cons_dict_dict d k uv dv rest h]
        simp only [mergedEntry, h]
      | vBool b =>
        rw [deepUpdate_cons_dict_leaf d k uv rest _ h (by rfl)]
        simp only [mergedEntry, h]
      | vInt n =>
        rw [deepUpdate_cons_dict_leaf d k uv rest _ h (by rfl)]
        simp only [mergedEntry, h]
      | vFloat q =>
        rw [deepUpdate_cons_dict_leaf d k uv rest _ h (by rfl)]
        simp only [mergedEntry, h]
      | vStr s =>
        rw [deepUpdate_cons_dict_leaf d k uv rest _ h (by rfl)]
        simp only [mergedEntry, h]
      | vNull =>
        rw [deepUpdate_cons_dict_leaf d k uv rest _ h (by rfl)]
        simp only [mergedEntry, h]
      | vList l =>
        rw [deepUpdate_cons_dict_leaf d k uv rest _ h (by rfl)]
        simp only [mergedEntry, h]
  | vBool b => rw [deepUpdate_cons_leaf d k _ rest (by rfl)]; simp [mergedEntry]
  | vInt n => rw [deepUpdate_cons_leaf d k _ rest (by rfl)]; simp [mergedEntry]
  | vFloat q => rw [deepUpdate_cons_leaf d k _ rest (by rfl)]; simp [mergedEntry]
  | vStr s => rw [deepUpdate_cons_leaf d k _ rest (by rfl)]; simp [mergedEntry]
  | vNull => rw [deepUpdate_cons_leaf d k _ rest (by rfl)]; simp [mergedEntry]
  | vList l => rw [deepUpdate_cons_leaf d k _ rest (by rfl)]; simp [mergedEntry]

theorem mergedEntry_congr {d₁ d₂ : AList} (k : String) (v : Val)
    (h : dlook d₁ k = dlook d₂ k) : mergedEntry d₁ k v = mergedEntry d₂ k v := by
  unfold mergedEntry
  rw [h]

theorem mergedEntry_of_not_dict (d : AList) (k : String) (v : Val)
    (hv : v.isDict = false) : mergedEntry d k v = v := by
  cases v <;> simp [Val.isDict] at hv ⊢ <;> simp [mergedEntry]

theorem dlook_dset (d : AList) (k k' : String) (v : Val) :
    dlook (dset d k v) k' = if k = k' then some v else dlook d k' := by
  induction d with
  | nil => simp [dset, dlook]
  | cons kv rest ih =>
    obtain ⟨k₀, w⟩ := kv
    by_cases h : k₀ = k
    · subst h
      by_cases h' : k₀ = k'
      · subst h'; simp [dset, dlook]
      · simp [dset, dlook, h']
    · by_cases h' : k₀ = k'
      · subst h'
        have hne : k ≠ k₀ := fun he => h he.symm
        simp [dset, dlook, h, hne]
      · simp [dset, dlook, h, h', ih]

/-- Python `k in d` for a dict. -/
def containsKey (d : AList) (k : String) : Bool := (dlook d k).isSome

/-- Top-level key uniqueness of an association list (every genuine Python
dict satisfies this). -/
def nodupKeys : AList → Bool
  | [] => true
  | (k, _) :: rest => !containsKey rest k && nodupKeys rest

mutual

/-- A value all of whose nested mappings have unique keys: the well-formedness
invariant every Python-built value satisfies. -/
def wfVal : Val → Bool
  | .vDict d => wfDict d
  | _ => true
termination_by v => sizeOf v
decreasing_by all_goals (simp_wf; try omega)

/-- Dict counterpart of `wfVal`. -/
def wfDict : AList → Bool
  | [] => true
  | (k, v) :: rest => !containsKey rest k && wfVal v && wfDict rest
termination_by d => sizeOf d
decreasing_by all_goals (simp_wf; try omega)

end

theorem wfDict_cons {k : String} {v : Val} {rest : AList}
    (h : wfDict ((k, v) :: rest) = true) :
    containsKey rest k = false ∧ wfVal v = true ∧ wfDict rest = true := by
  rw [wfDict] at h
  simp only [Bool.and_eq_true, Bool.not_eq_true'] at h
  exact ⟨h.1.1, h.1.2, h.2⟩

/-- Lookup of a dot-path inside a value: descends through nested mappings;
result `none` when the path leaves the mapping structure. -/
def getPathVal : Val → List String → Option Val
  | v, [] => some v
  | .vDict d, k :: rest =>
      match dlook d k with
      | some w => getPathVal w rest
      | none => none
  | _, _ :: _ => none

/-- The leaf (non-mapping) value stored at a path of a dict, if any. -/
def leafAt (d : AList) (p : List String) : Option Val :=
  match getPathVal (.vDict d) p with
  | some v => if v.isDict then none else some v
  | none => none

/-- Predicate `masks u p` holds when merging `u` over an accumulator can disturb the
value at path `p`: `u` carries some value at `p` itself, or a non-mapping
value at a proper prefix of `p`. -/
def masks : AList → List String → Bool
  | _, [] => true
  | u, k :: rest =>
      match dlook u k with
      | none => false
      | some (.vDict d) => if rest.isEmpty then true else masks d rest
      | some _ => true

theorem containsKey_eq_false {d : AList} {k : String}
    (h : containsKey d k = false) : dlook d k = none := by
  unfold containsKey at h
  cases hh : dlook d k <;> simp [hh] at h ⊢

theorem nodupKeys_of_wfDict : ∀ {u : AList}, wfDict u = true → nodupKeys u = true
  | [], _ => rfl
  | (k, v) :: rest, h => by
    obtain ⟨hc, _, hrest⟩ := wfDict_cons h
    rw [nodupKeys]
    simp [hc, nodupKeys_of_wfDict hrest]

theorem nodupKeys_cons {k : String} {v : Val} {rest : AList}
    (h : nodupKeys ((k, v) :: rest) = true) :
    containsKey rest k = false ∧ nodupKeys rest = true := by
  rw [nodupKeys] at h
  simp only [Bool.and_eq_true, Bool.not_eq_true'] at h
  exact h

theorem wfVal_dlook : ∀ (u : AList) (k : String) (w : Val),
    wfDict u = true → dlook u k = some w → wfVal w = true
  | (k₀, v₀) :: rest, k, w, hu, hl => by
    obtain ⟨_, hv, hrest⟩ := wfDict_cons hu
    rw [dlook] at hl
    by_cases hk : k₀ = k
    · rw [if_pos hk] at hl
      injection hl with hl
      subst hl; exact hv
    · rw [if_neg hk] at hl
      exact wfVal_dlook rest k w hrest hl

theorem dlook_deepUpdate :
    ∀ (u d : AList) (k : String), nodupKeys u = true →
    dlook (deepUpdate d u) k =
      match dlook u k with
      | none => dlook d k
      | some v => some (mergedEntry d k v)
  | [], d, k, _ => by simp [dlook]
  | (k₀, v₀) :: rest, d, k, hu => by
    obtain ⟨hc, hrest⟩ := nodupKeys_cons hu
    rw [deepUpdate_cons]
    rw [dlook_deepUpdate rest (dset d k₀ (mergedEntry d k₀ v₀)) k hrest]
    by_cases hk : k₀ = k
    · subst hk
      have hnone : dlook rest k₀ = none := containsKey_eq_false hc
      simp [dlook, hnone, dlook_dset]
    · have hlu : dlook ((k₀, v₀) :: rest) k = dlook rest k := by
        simp [dlook, hk]
      rw [hlu]
      cases hv : dlook rest k with
      | none =>
        simp only [dlook_dset, if_neg hk]
      | some v =>
        simp only []
        exact congrArg some
          (mergedEntry_congr k v (by rw [dlook_dset, if_neg hk]))

theorem deepUpdate_cons_untouched :
    ∀ (u d : AList) (k : String) (v : Val), containsKey u k = false →
    deepUpdate ((k, v) :: d) u = (k, v) :: deepUpdate d u
  | [], d, k, v, _ => by simp
  | (k₀, v₀) :: rest, d, k, v, h => by
    have hk : k₀ ≠ k := by
      intro he
      subst he
      unfold containsKey at h
      simp [dlook] at h
    have hrest : containsKey rest k = false := by
      unfold containsKey at h ⊢
      rw [dlook, if_neg hk] at h
      exact h
    rw [deepUpdate_cons, deepUpdate_cons]
    have hme : mergedEntry ((k, v) :: d) k₀ v₀ = mergedEntry d k₀ v₀ :=
      mergedEntry_congr k₀ v₀ (by rw [dlook, if_neg (fun he => hk he.symm)])
    rw [hme]
    have hds : dset ((k, v) :: d) k₀ (mergedEntry d k₀ v₀) =
        (k, v) :: dset d k₀ (mergedEntry d k₀ v₀) := by
      rw [dset, if_neg (fun he => hk he.symm)]
    rw [hds]
    exact deepUpdate_cons_untouched rest _ k v hrest

theorem deepUpdate_nil_left : ∀ (u : AList), wfDict u = true → deepUpdate [] u = u
  | [], _ => by simp
  | (k, v) :: rest, hu => by
    obtain ⟨hc, hv, hrest⟩ := wfDict_cons hu
    rw [deepUpdate_cons]
    have hme : mergedEntry [] k v = v := by
      cases v with
      | vDict uv =>
        have huv : wfDict uv = true := by rw [wfVal] at hv; exact hv
        show Val.vDict (deepUpdate [] uv) = Val.vDict uv
        rw [deepUpdate_nil_left uv huv]
      | vBool b => rfl
      | vInt n => rfl
      | vFloat q => rfl
      | vStr s => rfl
      | vNull => rfl
      | vList l => rfl
    rw [hme]
    show deepUpdate [(k, v)] rest = (k, v) :: rest
    rw [deepUpdate_cons_untouched rest [] k v hc, deepUpdate_nil_left rest hrest]
termination_by u => sizeOf u
decreasing_by all_goals (simp_wf; try (subst_vars; simp); try omega)

theorem getPathVal_leaf_cons (v : Val) (k : String) (rest : List String)
    (hv : v.isDict = false) : getPathVal v (k :: rest) = none := by
  cases v <;> simp [Val.isDict] at hv ⊢ <;> (rw [getPathVal] <;> simp)

theorem getPathVal_none_of_not_masks :
    ∀ (p : List String) (u : AList), masks u p = false →
    getPathVal (.vDict u) p = none
  | [], u, h => by rw [masks] at h; exact absurd h (by simp)
  | k :: rest, u, h => by
    rw [masks] at h
    cases hd : dlook u k with
    | none => rw [getPathVal, hd]
    | some w =>
      rw [hd] at h
      cases w with
      | vDict d =>
        have h' : (if rest.isEmpty = true then true else masks d rest) = false := h
        have hne : rest.isEmpty = false := by
          cases hr : rest.isEmpty
          · rfl
          · rw [hr, if_pos rfl] at h'
            exact absurd h' (by simp)
        rw [hne, if_neg (by simp)] at h'
        rw [getPathVal, hd]
        exact getPathVal_none_of_not_masks rest d h'
      | vBool b => exact absurd (show true = false from h) (by simp)
      | vInt n => exact absurd (show true = false from h) (by simp)
      | vFloat q => exact absurd (show true = false from h) (by simp)
      | vStr s => exact absurd (show true = false from h) (by simp)
      | vNull => exact absurd (show true = false from h) (by simp)
      | vList l => exact absurd (show true = false from h) (by simp)

/-- A leaf stored anywhere inside the incoming dict `u` survives the
structural merge of `u` over any target `d`. -/
theorem getPathVal_deepUpdate_of_leaf :
    ∀ (p : List String) (u d : AList) (v : Val),
    wfDict u = true → getPathVal (.vDict u) p = some v → v.isDict = false →
    getPathVal (.vDict (deepUpdate d u)) p = some v
  | [], u, d, v, _, hp, hv => by
    rw [getPathVal] at hp
    injection hp with hp
    rw [← hp] at hv
    simp [Val.isDict] at hv
  | k :: rest, u, d, v, hu, hp, hv => by
    rw [getPathVal] at hp
    cases hd : dlook u k with
    | none => rw [hd] at hp; exact absurd hp (by simp)
    | some w =>
      rw [hd] at hp
      simp only [] at hp
      have hlook : dlook (deepUpdate d u) k = some (mergedEntry d k w) := by
        rw [dlook_deepUpdate u d k (nodupKeys_of_wfDict hu), hd]
      rw [getPathVal, hlook]
      simp only []
      cases w with
      | vDict uv =>
        have huv : wfDict uv = true := by
          have := wfVal_dlook u k _ hu hd
          rw [wfVal] at this
          exact this
        cases rest with
        | nil =>
          rw [getPathVal] at hp
          injection hp with hp
          rw [← hp] at hv
          simp [Val.isDict] at hv
        | cons r rs =>
          cases hdk : dlook d k with
          | none =>
            show getPathVal (mergedEntry d k (.vDict uv)) (r :: rs) = some v
            have : mergedEntry d k (.vDict uv) = .vDict (deepUpdate [] uv) := by
              simp [mergedEntry, hdk]
            rw [this, deepUpdate_nil_left uv huv]
            exact hp
          | some old =>
            cases old with
            | vDict dv =>
              have : mergedEntry d k (.vDict uv) = .vDict (deepUpdate dv uv) := by
                simp [mergedEntry, hdk]
              rw [this]
              exact getPathVal_deepUpdate_of_leaf (r :: rs) uv dv v huv hp hv
            | vBool b =>
              have : mergedEntry d k (.vDict uv) = .vDict uv := by
                simp [mergedEntry, hdk]
              rw [this]; exact hp
            | vInt n =>
              have : mergedEntry d k (.vDict uv) = .vDict uv := by
                simp [mergedEntry, hdk]
              rw [this]; exact hp
            | vFloat q =>
              have : mergedEntry d k (.vDict uv) = .vDict uv := by
                simp [mergedEntry, hdk]
              rw [this]; exact hp
            | vStr s =>
              have : mergedEntry d k (.vDict uv) = .vDict uv := by
                simp [mergedEntry, hdk]
              rw [this]; exact hp
            | vNull =>
              have : mergedEntry d k (.vDict uv) = .vDict uv := by
                simp [mergedEntry, hdk]
              rw [this]; exact hp
            | vList l =>
              have : mergedEntry d k (.vDict uv) = .vDict uv := by
                simp [mergedEntry, hdk]
              rw [this]; exact hp
      | vBool b => rw [mergedEntry_of_not_dict d k _ (by rfl)]; exact hp
      | vInt n => rw [mergedEntry_of_not_dict d k _ (by rfl)]; exact hp
      | vFloat q => rw [mergedEntry_of_not_dict d k _ (by rfl)]; exact hp
      | vStr s => rw [mergedEntry_of_not_dict d k _ (by rfl)]; exact hp
      | vNull => rw [mergedEntry_of_not_dict d k _ (by rfl)]; exact hp
      | vList l => rw [mergedEntry_of_not_dict d k _ (by rfl)]; exact hp

/-- Merging a dict `u` that neither stores a value at path `p` nor a
non-mapping value at a proper prefix of `p` leaves the value at `p`
unchanged. -/
theorem getPathVal_deepUpdate_untouched :
    ∀ (p : List String) (u d : AList),
    wfDict u = true → masks u p = false →
    getPathVal (.vDict (deepUpdate d u)) p = getPathVal (.vDict d) p
  | [], u, d, _, hm => by rw [masks] at hm; exact absurd hm (by simp)
  | k :: rest, u, d, hu, hm => by
    rw [masks] at hm
    cases hd : dlook u k with
    | none =>
      have hlook : dlook (deepUpdate d u) k = dlook d k := by
        rw [dlook_deepUpdate u d k (nodupKeys_of_wfDict hu), hd]
      rw [getPathVal, hlook, getPathVal]
    | some w =>
      rw [hd] at hm
      have hlook : dlook (deepUpdate d u) k = some (mergedEntry d k w) := by
        rw [dlook_deepUpdate u d k (nodupKeys_of_wfDict hu), hd]
      cases w with
      | vDict u' =>
        have hm' : (if rest.isEmpty = true then true else masks u' rest) = false := hm
        have hne : rest.isEmpty = false := by
          cases hr : rest.isEmpty
          · rfl
          · rw [hr, if_pos rfl] at hm'
            exact absurd hm' (by simp)
        rw [hne, if_neg (by simp)] at hm'
        have hu' : wfDict u' = true := by
          have := wfVal_dlook u k _ hu hd
          rw [wfVal] at this
          exact this
        rw [getPathVal, hlook]
        simp only []
        cases hdk : dlook d k with
        | none =>
          have hmer : mergedEntry d k (.vDict u') = .vDict (deepUpdate [] u') := by
            simp [mergedEntry, hdk]
          rw [hmer, deepUpdate_nil_left u' hu', getPathVal, hdk]
          exact getPathVal_none_of_not_masks rest u' hm'
        | some old =>
          cases old with
          | vDict dv =>
            have hmer : mergedEntry d k (.vDict u') = .vDict (deepUpdate dv u') := by
              simp [mergedEntry, hdk]
            rw [hmer, getPathVal, hdk]
            exact getPathVal_deepUpdate_untouched rest u' dv hu' hm'
          | vBool b =>
            have hmer : mergedEntry d k (.vDict u') = .vDict u' := by
              simp [mergedEntry, hdk]
            rw [hmer, getPathVal, hdk]
            rw [getPathVal_none_of_not_masks rest u' hm']
            cases rest with
            | nil => simp at hne
            | cons r rs => exact (getPathVal_leaf_cons _ r rs (by rfl)).symm
          | vInt n =>
            have hmer : mergedEntry d k (.vDict u') = .vDict u' := by
              simp [mergedEntry, hdk]
            rw [hmer, getPathVal, hdk]
            rw [getPathVal_none_of_not_masks rest u' hm']
            cases rest with
            | nil => simp at hne
            | cons r rs => exact (getPathVal_leaf_cons _ r rs (by rfl)).symm
          | vFloat q =>
            have hmer : mergedEntry d k (.vDict u') = .vDict u' := by
              simp [mergedEntry, hdk]
            rw [hmer, getPathVal, hdk]
            rw [getPathVal_none_of_not_masks rest u' hm']
            cases rest with
            | nil => simp at hne
            | cons r rs => exact (getPathVal_leaf_cons _ r rs (by rfl)).symm
          | vStr s =>
            have hmer : mergedEntry d k (.vDict u') = .vDict u' := by
              simp [mergedEntry, hdk]
            rw [hmer, getPathVal, hdk]
            rw [getPathVal_none_of_not_masks rest u' hm']
            cases rest with
            | nil => simp at hne
            | cons r rs => exact (getPathVal_leaf_cons _ r rs (by rfl)).symm
          | vNull =>
            have hmer : mergedEntry d k (.vDict u') = .vDict u' := by
              simp [mergedEntry, hdk]
            rw [hmer, getPathVal, hdk]
            rw [getPathVal_none_of_not_masks rest u' hm']
            cases rest with
            | nil => simp at hne
            | cons r rs => exact (getPathVal_leaf_cons _ r rs (by rfl)).symm
          | vList l =>
            have hmer : mergedEntry d k (.vDict u') = .vDict u' := by
              simp [mergedEntry, hdk]
            rw [hmer, getPathVal, hdk]
            rw [getPathVal_none_of_not_masks rest u' hm']
            cases rest with
            | nil => simp at hne
            | cons r rs => exact (getPathVal_leaf_cons _ r rs (by rfl)).symm
      | vBool b => exact absurd (show true = false from hm) (by simp)
      | vInt n => exact absurd (show true = false from hm) (by simp)
      | vFloat q => exact absurd (show true = false from hm) (by simp)
      | vStr s => exact absurd (show true = false from hm) (by simp)
      | vNull => exact absurd (show true = false from hm) (by simp)
      | vList l => exact absurd (show true = false from hm) (by simp)

theorem containsKey_dset (d : AList) (k k' : String) (v : Val) :
    containsKey (dset d k v) k' = ((k = k' : Bool) || containsKey d k') := by
  unfold containsKey
  rw [dlook_dset]
  by_cases h : k = k' <;> simp [h]

theorem nodupKeys_dset : ∀ (d : AList) (k : String) (v : Val),
    nodupKeys d = true → nodupKeys (dset d k v) = true
  | [], k, v, _ => by simp [dset, nodupKeys, containsKey, dlook]
  | (k₀, w) :: rest, k, v, h => by
    obtain ⟨hc, hrest⟩ := nodupKeys_cons h
    rw [dset]
    by_cases hk : k₀ = k
    · rw [if_pos hk, nodupKeys]
      simp [hc, hrest]
    · have hkk : ¬(k = k₀) := fun he => hk he.symm
      rw [if_neg hk, nodupKeys]
      rw [containsKey_dset]
      simp [hc, hkk, nodupKeys_dset rest k v hrest]

theorem nodupKeys_deepUpdate : ∀ (u d : AList),
    nodupKeys d = true → nodupKeys (deepUpdate d u) = true
  | [], d, h => by simpa using h
  | (k, v) :: rest, d, h => by
    rw [deepUpdate_cons]
    exact nodupKeys_deepUpdate rest _ (nodupKeys_dset d k _ h)

/-! ### Scalar coercion (`_convert_value`, config.py:89-114) -/

/-- Python `str.lower()` (ASCII fragment; all tokens the engine compares
against are ASCII). -/
def pyLower (s : String) : String := String.mk (s.data.map Char.toLower)

/-- The whitespace characters stripped by Python `int()` / `float()`. -/
def isPyWs (c : Char) : Bool :=
  c = ' ' ∨ c = '\t' ∨ c = '\n' ∨ c = '\r' ∨ c = '\x0b' ∨ c = '\x0c'

/-- Strip leading and trailing whitespace from a character list. -/
def stripWs (l : List Char) : List Char :=
  ((l.dropWhile isPyWs).reverse.dropWhile isPyWs).reverse

/-- Validator for the tail of a Python numeric digit group: digits with
single underscores that must sit between two digits. -/
def validGroupAux : List Char → Bool
  | [] => true
  | c :: rest =>
      if c = '_' then
        match rest with
        | c₂ :: _ => c₂.isDigit && validGroupAux rest
        | [] => false
      else c.isDigit && validGroupAux rest

/-- A nonempty Python digit group: starts and ends with a digit, single
underscores only between digits. -/
def validGroup : List Char → Bool
  | [] => false
  | c :: rest => c.isDigit && validGroupAux rest

/-- Numeric value of a list of decimal digits. -/
def natOfDigits (l : List Char) : Nat :=
  l.foldl (fun n c => 10 * n + (c.toNat - 48)) 0

/-- Split off a maximal run of digits/underscores. -/
def takeGroup (l : List Char) : List Char × List Char :=
  (l.takeWhile (fun c => c.isDigit || c = '_'),
   l.dropWhile (fun c => c.isDigit || c = '_'))

/-- Strip one optional leading sign, returning the sign factor and the
remaining characters. -/
def splitSign : List Char → Int × List Char
  | [] => (1, [])
  | c :: rest =>
      if c = '+' then (1, rest)
      else if c = '-' then (-1, rest)
      else (1, c :: rest)

/-- Python `int(s)` on a decimal string: optional surrounding whitespace,
optional sign, then one valid digit group. -/
def pyParseInt (s : String) : Option Int :=
  let g := splitSign (stripWs s.data)
  if validGroup g.2 then
    some (g.1 * (natOfDigits (g.2.filter Char.isDigit) : Int))
  else none

/-- The optional exponent tail of a Python float literal, applied to an
already-parsed mantissa: the decimal value is
`sign * digits(ip ++ fp) * 10 ^ (exponent - |fp|)`. -/
def pyParseFloatExp (sign : Int) (ip fp : List Char) (r : List Char) :
    Option PyFloat :=
  let mant : Int := sign * (natOfDigits ((ip ++ fp).filter Char.isDigit) : Int)
  let fracLen : Int := ((fp.filter Char.isDigit).length : Int)
  match r with
  | [] => some ⟨mant, -fracLen⟩
  | e :: r₁ =>
      if e = 'e' ∨ e = 'E' then
        let es := splitSign r₁
        let g := takeGroup es.2
        if validGroup g.1 ∧ g.2 = [] then
          some ⟨mant,
            es.1 * (natOfDigits (g.1.filter Char.isDigit) : Int) - fracLen⟩
        else none
      else none

/-- Python `float(s)` on a decimal string containing a decimal point (the
only shape reachable from `_convert_value`, which guards on `'.' in value`;
`inf`/`nan` spellings contain no point).  The exact decimal value is
returned as a `PyFloat`. -/
def pyParseFloat (s : String) : Option PyFloat :=
  let sr := splitSign (stripWs s.data)
  let gi := takeGroup sr.2
  if gi.1 ≠ [] ∧ validGroup gi.1 = false then none
  else
    match gi.2 with
    | '.' :: r₂ =>
        let gf := takeGroup r₂
        if gf.1 ≠ [] ∧ validGroup gf.1 = false then none
        else if gi.1 = [] ∧ gf.1 = [] then none
        else pyParseFloatExp sr.1 gi.1 gf.1 gf.2
    | r₁ =>
        if gi.1 = [] then none
        else pyParseFloatExp sr.1 gi.1 [] r₁

/-- Python `'.' in value` for a string. -/
def hasDot (s : String) : Bool := s.data.contains '.'

/-- Models `_convert_value` (config.py:89-114): best-effort coercion of a raw
string token to bool / float / int, returning every non-string input and
every unparseable string unchanged.  Total, no exceptions. -/
def convertValue : Val → Val
  | Val.vStr s =>
      let low := pyLower s
      if low = "true" ∨ low = "yes" ∨ low = "y" ∨ low = "1" then Val.vBool true
      else if low = "false" ∨ low = "no" ∨ low = "n" ∨ low = "0" then Val.vBool false
      else if hasDot s then
        match pyParseFloat s with
        | some q => Val.vFloat q
        | none => Val.vStr s
      else
        match pyParseInt s with
        | some n => Val.vInt n
        | none => Val.vStr s
  | v => v

/-! ### Helper lemmas for scalar coercion -/

/-- Whether a value is a string (`isinstance(v, str)` in the source). -/
def Val.isStr : Val → Bool
  | .vStr _ => true
  | _ => false

theorem validGroupAux_chars : ∀ (l : List Char), validGroupAux l = true →
    ∀ c ∈ l, c.isDigit = true ∨ c = '_'
  | [], _, c, hc => absurd hc (List.not_mem_nil c)
  | c₀ :: rest, h, c, hc => by
    cases rest with
    | nil =>
      have h' : (if c₀ = '_' then false
          else c₀.isDigit && validGroupAux []) = true := h
      by_cases h0 : c₀ = '_'
      · rw [if_pos h0] at h'; simp at h'
      · rw [if_neg h0] at h'
        simp only [Bool.and_eq_true] at h'
        rcases List.mem_cons.mp hc with hc0 | hc₂
        · left; rw [hc0]; exact h'.1
        · exact absurd hc₂ (List.not_mem_nil c)
    | cons c₂ r₂ =>
      have h' : (if c₀ = '_' then c₂.isDigit && validGroupAux (c₂ :: r₂)
          else c₀.isDigit && validGroupAux (c₂ :: r₂)) = true := h
      by_cases h0 : c₀ = '_'
      · rw [if_pos h0] at h'
        simp only [Bool.and_eq_true] at h'
        rcases List.mem_cons.mp hc with hc0 | hc₂
        · right; rw [hc0]; exact h0
        · exact validGroupAux_chars (c₂ :: r₂) h'.2 c hc₂
      · rw [if_neg h0] at h'
        simp only [Bool.and_eq_true] at h'
        rcases List.mem_cons.mp hc with hc0 | hc₂
        · left; rw [hc0]; exact h'.1
        · exact validGroupAux_chars (c₂ :: r₂) h'.2 c hc₂

theorem validGroup_chars (g : List Char) (h : validGroup g = true) :
    ∀ c ∈ g, c.isDigit = true ∨ c = '_' := by
  cases g with
  | nil => intro c hc; exact absurd hc (List.not_mem_nil c)
  | cons c₀ rest =>
    rw [validGroup] at h
    simp only [Bool.and_eq_true] at h
    intro c hc
    rcases List.mem_cons.mp hc with hc0 | hc₂
    · left; rw [hc0]; exact h.1
    · exact validGroupAux_chars rest h.2 c hc₂

theorem validGroup_no_dot (g : List Char) (hg : ('.' : Char) ∈ g) :
    validGroup g = false := by
  by_contra hc
  rw [Bool.not_eq_false] at hc
  rcases validGroup_chars g hc '.' hg with h1 | h1
  · exact absurd h1 (by decide)
  · exact absurd h1 (by decide)

theorem mem_dropWhile_of_not {p : Char → Bool} {c : Char} {l : List Char}
    (hc : c ∈ l) (hp : p c = false) : c ∈ l.dropWhile p := by
  have hsplit := List.takeWhile_append_dropWhile (p := p) (l := l)
  rw [← hsplit] at hc
  rcases List.mem_append.mp hc with h1 | h2
  · have := List.mem_takeWhile_imp h1
    rw [hp] at this
    exact absurd this (by simp)
  · exact h2

theorem mem_stripWs {c : Char} {l : List Char} (hc : c ∈ l)
    (hw : isPyWs c = false) : c ∈ stripWs l := by
  unfold stripWs
  exact List.mem_reverse.mpr
    (mem_dropWhile_of_not (List.mem_reverse.mpr (mem_dropWhile_of_not hc hw)) hw)

/-- A string containing a decimal point is never accepted by Python
`int()`. -/
theorem pyParseInt_none_of_hasDot (s : String) (h : hasDot s = true) :
    pyParseInt s = none := by
  have hdot : ('.' : Char) ∈ s.data := by
    unfold hasDot at h
    rcases List.contains_iff_exists_mem_beq.mp h with ⟨b, hb, hbeq⟩
    rw [beq_iff_eq.mp hbeq]
    exact hb
  have hdot2 : ('.' : Char) ∈ stripWs s.data := mem_stripWs hdot (by decide)
  unfold pyParseInt
  cases hcs : stripWs s.data with
  | nil => rw [hcs] at hdot2; exact absurd hdot2 (List.not_mem_nil _)
  | cons c₀ cs₀ =>
    rw [hcs] at hdot2
    rw [splitSign]
    by_cases hp : c₀ = '+'
    · rw [if_pos hp]
      have hdot3 : ('.' : Char) ∈ cs₀ := by
        rcases List.mem_cons.mp hdot2 with he | hm
        · rw [hp] at he; exact absurd he (by decide)
        · exact hm
      simp [validGroup_no_dot cs₀ hdot3]
    · rw [if_neg hp]
      by_cases hm : c₀ = '-'
      · rw [if_pos hm]
        have hdot3 : ('.' : Char) ∈ cs₀ := by
          rcases List.mem_cons.mp hdot2 with he | hmm
          · rw [hm] at he; exact absurd he (by decide)
          · exact hmm
        simp [validGroup_no_dot cs₀ hdot3]
      · rw [if_neg hm]
        simp [validGroup_no_dot (c₀ :: cs₀) hdot2]

/-! ### Collision check, projection and the resolution engine -/

/-- Code-point lexicographic comparison of character lists (the order of
Python string sorting). -/
def chListLe : List Char → List Char → Bool
  | [], _ => true
  | _ :: _, [] => false
  | a :: as, b :: bs =>
      if a.toNat < b.toNat then true
      else if b.toNat < a.toNat then false
      else chListLe as bs

/-- Code-point lexicographic order on strings. -/
def strLe (a b : String) : Bool := chListLe a.data b.data

/-- Insert into an already-sorted list. -/
def insertSorted (x : String) : List String → List String
  | [] => [x]
  | y :: ys => if strLe x y then x :: y :: ys else y :: insertSorted x ys

/-- Sorting used for error reporting (`missing_keys.sort()` /
`conflicting_keys.sort()`): Python `list.sort()` on strings. -/
def sortStrings (l : List String) : List String := l.foldr insertSorted []

/-- Lookup in a `(name, callable?)` table modelling `dir(self)` together
with `callable(getattr(self, name))`. -/
def attrFlag : List (String × Bool) → String → Option Bool
  | [], _ => none
  | (k, b) :: rest, key => if k = key then some b else attrFlag rest key

/-- Python `key in dir(self) and callable(getattr(self, key))`. -/
def callableIn (ia : List (String × Bool)) (k : String) : Bool :=
  match attrFlag ia k with
  | some b => b
  | none => false

/-- The keys collected by `_validate_attribute_override` (config.py:339-360):
top-level keys of the checked mapping whose existing attribute is callable. -/
def conflictingKeys (ia : List (String × Bool)) (data : AList) : List String :=
  (dkeys data).filter (fun k => callableIn ia k)

/-- Models `_validate_attribute_override` (config.py:339-367): `none` when no key
conflicts; otherwise the sorted list of conflicting keys carried by the
raised `ValueError`. -/
def validateAttributeOverride (ia : List (String × Bool)) (data : AList) :
    Option (List String) :=
  let l := conflictingKeys ia data
  if l.isEmpty then none else some (sortStrings l)

/-- An attribute value on the engine instance: either a raw configuration
value or a generated dataclass instance with sanitized field names. -/
inductive AttrVal where
  | ofVal : Val → AttrVal
  | dcls : List (String × AttrVal) → AttrVal

/-- Generic first-match lookup for attribute-style association lists. -/
def lookA {β : Type} : List (String × β) → String → Option β
  | [], _ => none
  | (k, b) :: rest, key => if k = key then some b else lookA rest key

/-- Generic update-or-append for attribute-style association lists
(Python attribute assignment). -/
def setA {β : Type} : List (String × β) → String → β → List (String × β)
  | [], key, v => [(key, v)]
  | (k, w) :: rest, key, v =>
      if k = key then (k, v) :: rest else (k, w) :: setA rest key v

/-- Key sanitization of `_dict_to_dataclass` (config.py:321): spaces, dots
and hyphens become underscores. -/
def sanitizeKey (s : String) : String :=
  String.mk (s.data.map (fun c => if c = ' ' ∨ c = '.' ∨ c = '-' then '_' else c))

/-- Models `_dict_to_dataclass` (config.py:305-337): recursively converts a
mapping into a dataclass instance with sanitized field names. -/
def dictToDataclass : AList → List (String × AttrVal)
  | [] => []
  | (k, Val.vDict dv) :: rest =>
      (sanitizeKey k, AttrVal.dcls (dictToDataclass dv)) :: dictToDataclass rest
  | (k, v) :: rest => (sanitizeKey k, AttrVal.ofVal v) :: dictToDataclass rest
termination_by d => sizeOf d
decreasing_by all_goals (simp_wf; try omega)

/-- The attribute bound for one top-level entry by
`_update_attributes_from_data` (config.py:382-392). -/
def projectTop (useDataclasses : Bool) (v : Val) : AttrVal :=
  match v with
  | Val.vDict dv =>
      if useDataclasses then AttrVal.dcls (dictToDataclass dv) else AttrVal.ofVal v
  | v => AttrVal.ofVal v

/-- Models `_update_attributes_from_data` (config.py:382-392): rebind one
attribute per top-level key of `data`. -/
def updateAttributesFromData (useDataclasses : Bool)
    (attrs : List (String × AttrVal)) (data : AList) : List (String × AttrVal) :=
  data.foldl (fun a kv => setA a kv.1 (projectTop useDataclasses kv.2)) attrs

/-- The mutable state of a `Config` instance that the verified operations
touch: the unified namespace, the four source buffers, the tracked file
list and the projected attribute namespace. -/
structure ConfigState where
  data : AList
  fileData : AList
  envData : AList
  argsData : AList
  runtimeData : AList
  files : List String
  attrs : List (String × AttrVal)

/-- The fixed-order merge of the four source buffers performed by
`_update_data_from_all_x_data` (config.py:369-376): clear `data`, then
deep-update with files, env, args, runtime in that order. -/
def mergeFour (f e a r : AList) : AList :=
  deepUpdate (deepUpdate (deepUpdate (deepUpdate [] f) e) a) r

/-- Models `_update_data_from_all_x_data` (config.py:369-380): rebuild `data`
from the four buffers, then run the collision check (whose error, if any,
is the second component). -/
def updateDataFromAllXData (ia : List (String × Bool)) (s : ConfigState) :
    ConfigState × Option (List String) :=
  let d := mergeFour s.fileData s.envData s.argsData s.runtimeData
  ({ s with data := d }, validateAttributeOverride ia d)

/-- The chained call
`self._update_data_from_all_x_data()._update_attributes_from_data()`:
when the collision check raises, the exception propagates and the
projection never runs. -/
def resolveAndProject (ia : List (String × Bool)) (useDataclasses : Bool)
    (s : ConfigState) : ConfigState × Option (List String) :=
  match updateDataFromAllXData ia s with
  | (s', none) =>
      ({ s' with attrs := updateAttributesFromData useDataclasses s'.attrs s'.data },
       none)
  | (s', some l) => (s', some l)

/-- The nested single-path dict built by `update` / `_load_from_args` from
a dot-separated key (config.py:245-251, 396-403).  The empty-path case is
unreachable: Python `split` always returns a nonempty list. -/
def nestedSingleton : List String → Val → AList
  | [], _ => []
  | [k], v => [(k, v)]
  | k :: rest, v => [(k, Val.vDict (nestedSingleton rest v))]

/-- Worker for Python `key.split('.')`. -/
def splitDotsAux : List Char → List Char → List String
  | [], acc => [String.mk acc.reverse]
  | c :: rest, acc =>
      if c = '.' then String.mk acc.reverse :: splitDotsAux rest []
      else splitDotsAux rest (c :: acc)

/-- Python `key.split('.')`. -/
def splitDots (s : String) : List String := splitDotsAux s.data []

/-- Models `Config.update` (config.py:394-407): deep-update the runtime buffer
with the single-path nested dict (value uncoerced), then resolve and
project. -/
def updateOp (ia : List (String × Bool)) (useDataclasses : Bool)
    (s : ConfigState) (key : String) (value : Val) :
    ConfigState × Option (List String) :=
  let s₁ := { s with
    runtimeData := deepUpdate s.runtimeData (nestedSingleton (splitDots key) value) }
  resolveAndProject ia useDataclasses s₁

/-- Models `_load_from_files` (config.py:291-303): clear the files buffer, then
fold every tracked file's parse result into it in list order; a file whose
read/parse fails (`parseFile` returns an error) is logged and skipped. -/
def loadFromFiles (parseFile : String → Except String AList)
    (files : List String) : AList :=
  files.foldl
    (fun acc f =>
      match parseFile f with
      | Except.ok nd => deepUpdate acc nd
      | Except.error _ => acc) []

/-- Models `Config.load_files` (config.py:434-440): extend the tracked list,
rebuild the files buffer from scratch, then resolve and project. -/
def loadFilesOp (parseFile : String → Except String AList)
    (ia : List (String × Bool)) (useDataclasses : Bool)
    (s : ConfigState) (newFiles : List String) :
    ConfigState × Option (List String) :=
  let files' := s.files ++ newFiles
  resolveAndProject ia useDataclasses
    { s with files := files', fileData := loadFromFiles parseFile files' }

/-- Models `_load_from_args` (config.py:236-254): merge each parsed argument
entry into the args buffer, coercing the value and expanding dotted keys
into nested single-path dicts. -/
def loadFromArgsDict (argsData : AList) (argsDict : AList) : AList :=
  argsDict.foldl
    (fun acc kv =>
      deepUpdate acc (nestedSingleton (splitDots kv.1) (convertValue kv.2)))
    argsData

/-- Models `Config.load_args` (config.py:442-446) after the argument vector has
been parsed into a flat dict (argument-vector parsing is a specified
external boundary). -/
def loadArgsOp (ia : List (String × Bool)) (useDataclasses : Bool)
    (s : ConfigState) (argsDict : AList) : ConfigState × Option (List String) :=
  resolveAndProject ia useDataclasses
    { s with argsData := loadFromArgsDict s.argsData argsDict }

/-! ### Key-presence validator (`validate_config`, config.py:461-530) -/

/-- Models `_is_key_present_recursive` (config.py:487-530): exhausted path
succeeds; a `%` segment needs a mapping (empty mapping or exhausted tail
succeed, otherwise every child value must satisfy the tail); a literal
segment needs a mapping containing that key and recurses into its value. -/
def isKeyPresent : Val → List String → Bool
  | _, [] => true
  | v, part :: rest =>
      if part = "%" then
        match v with
        | Val.vDict d =>
            if d.isEmpty then true
            else if rest.isEmpty then true
            else d.all (fun kv => isKeyPresent kv.2 rest)
        | _ => false
      else
        match v with
        | Val.vDict d =>
            match dlook d part with
            | some w => isKeyPresent w rest
            | none => false
        | _ => false

/-- Models `validate_config` (config.py:461-485): collect (not fail-fast) every
pattern whose dotted path is not present, in input order; `none` when all
match, otherwise the sorted list carried by the raised `ValueError`. -/
def validateConfig (data : AList) (keysToValidate : List String) :
    Option (List String) :=
  let missing := keysToValidate.filter
    (fun ks => !(isKeyPresent (Val.vDict data) (splitDots ks)))
  if missing.isEmpty then none else some (sortStrings missing)

/-- State-passing form of `validate_config`: the namespace is only read. -/
def validateConfigOp (s : ConfigState) (keysToValidate : List String) :
    Option (List String) × ConfigState :=
  (validateConfig s.data keysToValidate, s)

/-! ### Watch loop (`_config_file_polling_thread`, config.py:409-432) -/

/-- Lookup in the `file_stamps` bookkeeping dict. -/
def lookStamp : List (String × Int) → String → Option Int
  | [], _ => none
  | (k, t) :: rest, key => if k = key then some t else lookStamp rest key

/-- Update-or-append in the `file_stamps` dict. -/
def setStamp : List (String × Int) → String → Int → List (String × Int)
  | [], key, t => [(key, t)]
  | (k, w) :: rest, key, t =>
      if k = key then (k, t) :: rest else (k, w) :: setStamp rest key t

/-- The external environment one polling cycle observes: which tracked
files exist, their current modification stamps, and the outcome of
reading/parsing each file. -/
structure PollEnv where
  fileExists : String → Bool
  mtime : String → Int
  parseFile : String → Except String AList

/-- The stamp-checking loop of one polling cycle (config.py:415-422):
skip missing files; when a file's current stamp differs from the recorded
one (or none is recorded), record it and request a reload. -/
def checkStamps (env : PollEnv) (files : List String)
    (stamps : List (String × Int)) : List (String × Int) × Bool :=
  files.foldl
    (fun acc f =>
      if env.fileExists f = false then acc
      else
        let cur := env.mtime f
        if lookStamp acc.1 f ≠ some cur then (setStamp acc.1 f cur, true)
        else acc)
    (stamps, false)

/-- One registered reload callback, modelled by its outcome when invoked:
`Except.ok ()` for a normal return, `Except.error e` when it raises `e`. -/
abbrev Callback := Except String Unit

/-- The callback loop of one polling cycle (config.py:428-432): every
callback is invoked once, in registration order; a raising callback
produces a logged error entry (`some e`) and the loop continues. -/
def runCallbacks (cbs : List Callback) : List (Option String) :=
  cbs.map fun cb =>
    match cb with
    | Except.ok _ => none
    | Except.error e => some e

/-- The observable outcome of one polling cycle. -/
structure CycleResult where
  state : ConfigState
  stamps : List (String × Int)
  reloadNeeded : Bool
  collisionErr : Option (List String)
  callbackTrace : Option (List (Option String))

/-- One iteration of `_config_file_polling_thread` after the sleep
(config.py:411-432).  When a reload is needed the files buffer is cleared
and rebuilt, the namespace re-resolved and re-projected, and the
callbacks run — unless the collision check raises, in which case the
exception propagates out of the loop and the callbacks are never invoked
(`callbackTrace = none`). -/
def pollCycle (env : PollEnv) (ia : List (String × Bool))
    (useDataclasses : Bool) (s : ConfigState)
    (stamps : List (String × Int)) (cbs : List Callback) : CycleResult :=
  let checked := checkStamps env s.files stamps
  if checked.2 then
    let s₁ := { s with fileData := loadFromFiles env.parseFile s.files }
    match resolveAndProject ia useDataclasses s₁ with
    | (s₂, some l) => ⟨s₂, checked.1, true, some l, none⟩
    | (s₂, none) => ⟨s₂, checked.1, true, none, some (runCallbacks cbs)⟩
  else ⟨s, checked.1, false, none, none⟩

/-- Models `register_update_callback` (config.py:448-459): a callable is appended
to the registration list, anything else is logged and ignored. -/
def registerUpdateCallback (cbs : List Callback) (isCallable : Bool)
    (cb : Callback) : List Callback :=
  if isCallable then cbs ++ [cb] else cbs

/-! ### Singleton metaclass (`Singleton.__call__`, config.py:47-53) -/

/-- The `Singleton._instances` registry: one constructed instance per
class, keyed by the class. -/
def SingletonRegistry (C I : Type) := List (C × I)

/-- Registry lookup. -/
def regLook {C I : Type} [DecidableEq C] : List (C × I) → C → Option I
  | [], _ => none
  | (c, i) :: rest, cls => if c = cls then some i else regLook rest cls

/-- Models `Singleton.__call__` (config.py:50-53): construct and register on the
first call for a class, return the registered instance (ignoring the
arguments) on every later call. -/
def singletonCall {C I A : Type} [DecidableEq C] (mk : C → A → I)
    (reg : List (C × I)) (cls : C) (args : A) : I × List (C × I) :=
  match regLook reg cls with
  | some i => (i, reg)
  | none => (mk cls args, reg ++ [(cls, mk cls args)])

/-- Models `Config._reset` (config.py:643-647): clear the instance registry. -/
def singletonReset {C I : Type} (reg : List (C × I)) : List (C × I) := []

/-! ### Save (`Config.save`, config.py:536-548) -/

/-- The filesystem-visible outcome of `Config.save`. -/
inductive SaveOutcome where
  | wrote : String → String → Val → SaveOutcome
  | wroteNothing : String → SaveOutcome
  | errorLogged : String → SaveOutcome

/-- Models `Config.save` (config.py:536-548) over the instance
attribute namespace: the default target path is read from the attribute
`file` and the dumped object from the attribute `config` (neither of
which `__init__` ever creates — the real attributes are `files` and
`data`); any exception is caught and logged.  An unknown format opens and
truncates the file but dumps nothing (the dump call sits inside the two
format branches); the truncation of the opened file before the
`AttributeError` on `self.config` is a side effect the model does not
track. -/
def save (attrs : List (String × AttrVal)) (newFile : Option String)
    (format : String) : SaveOutcome :=
  let target : Except String String :=
    match newFile with
    | some s =>
        if s = "" then
          match lookA attrs "file" with
          | some (AttrVal.ofVal (Val.vStr p)) => Except.ok p
          | some _ => Except.error "TypeError: invalid path object"
          | none => Except.error "AttributeError: no attribute file"
        else Except.ok s
    | none =>
        match lookA attrs "file" with
        | some (AttrVal.ofVal (Val.vStr p)) => Except.ok p
        | some _ => Except.error "TypeError: invalid path object"
        | none => Except.error "AttributeError: no attribute file"
  match target with
  | Except.error e => SaveOutcome.errorLogged e
  | Except.ok path =>
      if format = "yaml" ∨ format = "json" then
        match lookA attrs "config" with
        | some (AttrVal.ofVal v) => SaveOutcome.wrote path format v
        | some (AttrVal.dcls _) => SaveOutcome.errorLogged "dump failed"
        | none => SaveOutcome.errorLogged "AttributeError: no attribute config"
      else SaveOutcome.wroteNothing path

/-! ### Properties of the report sorting -/

theorem chListLe_total : ∀ (x y : List Char),
    chListLe x y = true ∨ chListLe y x = true
  | [], y => by left; rw [chListLe]
  | a :: as, [] => by right; rw [chListLe]
  | a :: as, b :: bs => by
    rw [chListLe, chListLe]
    by_cases h1 : a.toNat < b.toNat
    · left; simp [h1]
    · by_cases h2 : b.toNat < a.toNat
      · right; simp [h2]
      · rcases chListLe_total as bs with h | h <;> simp [h1, h2, h]

theorem strLe_total (a b : String) : strLe a b = true ∨ strLe b a = true :=
  chListLe_total a.data b.data

theorem insertSorted_perm (x : String) (l : List String) :
    List.Perm (insertSorted x l) (x :: l) := by
  induction l with
  | nil => simp [insertSorted]
  | cons y ys ih =>
    rw [insertSorted]
    by_cases h : strLe x y = true
    · rw [if_pos h]
    · rw [if_neg h]
      exact List.Perm.trans (List.Perm.cons y ih) (List.Perm.swap x y ys)

theorem sortStrings_perm (l : List String) : List.Perm (sortStrings l) l := by
  induction l with
  | nil => exact List.Perm.refl _
  | cons x xs ih =>
    show List.Perm (insertSorted x (sortStrings xs)) (x :: xs)
    exact List.Perm.trans (insertSorted_perm x (sortStrings xs))
      (List.Perm.cons x ih)

theorem mem_sortStrings {l : List String} {a : String} :
    a ∈ sortStrings l ↔ a ∈ l := (sortStrings_perm l).mem_iff

theorem chListLe_trans : ∀ (x y z : List Char),
    chListLe x y = true → chListLe y z = true → chListLe x z = true
  | [], _, _, _, _ => by rw [chListLe]
  | a :: as, [], z, h1, _ => by
    rw [chListLe] at h1; exact absurd h1 (by simp)
  | a :: as, b :: bs, [], _, h2 => by
    rw [chListLe] at h2; exact absurd h2 (by simp)
  | a :: as, b :: bs, c :: cs, h1, h2 => by
    rw [chListLe] at h1 h2 ⊢
    by_cases hab : a.toNat < b.toNat
    · rw [if_pos hab] at h1
      by_cases hbc : b.toNat < c.toNat
      · rw [if_pos (Nat.lt_trans hab hbc)]
      · by_cases hcb : c.toNat < b.toNat
        · rw [if_neg hbc, if_pos hcb] at h2; exact absurd h2 (by simp)
        · have hac : a.toNat < c.toNat := by omega
          rw [if_pos hac]
    · rw [if_neg hab] at h1
      by_cases hba : b.toNat < a.toNat
      · rw [if_pos hba] at h1; exact absurd h1 (by simp)
      · rw [if_neg hba] at h1
        by_cases hbc : b.toNat < c.toNat
        · rw [if_pos hbc] at h2
          have hac : a.toNat < c.toNat := by omega
          rw [if_pos hac]
        · rw [if_neg hbc] at h2
          by_cases hcb : c.toNat < b.toNat
          · rw [if_pos hcb] at h2; exact absurd h2 (by simp)
          · rw [if_neg hcb] at h2
            have h3 : ¬ a.toNat < c.toNat := by omega
            have h4 : ¬ c.toNat < a.toNat := by omega
            rw [if_neg h3, if_neg h4]
            exact chListLe_trans as bs cs h1 h2

theorem strLe_trans {a b c : String} (h1 : strLe a b = true)
    (h2 : strLe b c = true) : strLe a c = true :=
  chListLe_trans a.data b.data c.data h1 h2

theorem insertSorted_pairwise (x : String) :
    ∀ (l : List String), List.Pairwise (fun a b => strLe a b = true) l →
    List.Pairwise (fun a b => strLe a b = true) (insertSorted x l)
  | [], _ => by simp [insertSorted]
  | y :: ys, h => by
    rw [List.pairwise_cons] at h
    obtain ⟨hy, hys⟩ := h
    rw [insertSorted]
    by_cases hxy : strLe x y = true
    · rw [if_pos hxy]
      rw [List.pairwise_cons]
      constructor
      · intro z hz
        rcases List.mem_cons.mp hz with rfl | hz₂
        · exact hxy
        · exact strLe_trans hxy (hy z hz₂)
      · rw [List.pairwise_cons]
        exact ⟨hy, hys⟩
    · rw [if_neg hxy]
      rw [List.pairwise_cons]
      constructor
      · intro z hz
        rcases List.mem_cons.mp ((insertSorted_perm x ys).mem_iff.mp hz) with hzx | hz₂
        · subst hzx
          rcases strLe_total z y with h' | h'
          · exact absurd h' hxy
          · exact h'
        · exact hy z hz₂
      · exact insertSorted_pairwise x ys hys

theorem sortStrings_pairwise (l : List String) :
    List.Pairwise (fun a b => strLe a b = true) (sortStrings l) := by
  induction l with
  | nil => exact List.Pairwise.nil
  | cons x xs ih => exact insertSorted_pairwise x (sortStrings xs) ih

/-! ### Helper lemmas about the resolution engine -/

theorem resolveAndProject_data (ia : List (String × Bool)) (dc : Bool)
    (s : ConfigState) :
    ((resolveAndProject ia dc s).1).data =
        mergeFour s.fileData s.envData s.argsData s.runtimeData ∧
    ((resolveAndProject ia dc s).1).fileData = s.fileData ∧
    ((resolveAndProject ia dc s).1).envData = s.envData ∧
    ((resolveAndProject ia dc s).1).argsData = s.argsData ∧
    ((resolveAndProject ia dc s).1).runtimeData = s.runtimeData ∧
    ((resolveAndProject ia dc s).1).files = s.files ∧
    (resolveAndProject ia dc s).2 =
      validateAttributeOverride ia
        (mergeFour s.fileData s.envData s.argsData s.runtimeData) ∧
    (∀ l, (resolveAndProject ia dc s).2 = some l →
      ((resolveAndProject ia dc s).1).attrs = s.attrs) ∧
    ((resolveAndProject ia dc s).2 = none →
      ((resolveAndProject ia dc s).1).attrs =
        updateAttributesFromData dc s.attrs
          (mergeFour s.fileData s.envData s.argsData s.runtimeData)) := by
  unfold resolveAndProject updateDataFromAllXData
  cases hv : validateAttributeOverride ia
      (mergeFour s.fileData s.envData s.argsData s.runtimeData) with
  | none => simp [hv]
  | some l => simp [hv]

theorem lookA_setA {β : Type} (a : List (String × β)) (k k' : String) (v : β) :
    lookA (setA a k v) k' = if k = k' then some v else lookA a k' := by
  induction a with
  | nil => simp [setA, lookA]
  | cons kv rest ih =>
    obtain ⟨k₀, w⟩ := kv
    by_cases h : k₀ = k
    · subst h
      by_cases h' : k₀ = k'
      · subst h'; simp [setA, lookA]
      · simp [setA, lookA, h']
    · by_cases h' : k₀ = k'
      · subst h'
        have hne : k ≠ k₀ := fun he => h he.symm
        simp [setA, lookA, h, hne]
      · simp [setA, lookA, h, h', ih]

theorem lookA_updateAttributes_skip (dc : Bool) :
    ∀ (data : AList) (attrs : List (String × AttrVal)) (k : String),
    containsKey data k = false →
    lookA (updateAttributesFromData dc attrs data) k = lookA attrs k
  | [], attrs, k, _ => rfl
  | (k₀, v₀) :: rest, attrs, k, h => by
    have hk : k₀ ≠ k := by
      intro he
      subst he
      unfold containsKey at h
      simp [dlook] at h
    have hrest : containsKey rest k = false := by
      unfold containsKey at h ⊢
      rw [dlook, if_neg hk] at h
      exact h
    show lookA (updateAttributesFromData dc
        (setA attrs k₀ (projectTop dc v₀)) rest) k = lookA attrs k
    rw [lookA_updateAttributes_skip dc rest _ k hrest, lookA_setA, if_neg hk]

theorem lookA_updateAttributes (dc : Bool) :
    ∀ (data : AList) (attrs : List (String × AttrVal)) (k : String) (v : Val),
    nodupKeys data = true → dlook data k = some v →
    lookA (updateAttributesFromData dc attrs data) k = some (projectTop dc v)
  | [], _, k, v, _, h => by rw [dlook] at h; exact absurd h (by simp)
  | (k₀, v₀) :: rest, attrs, k, v, hnd, h => by
    obtain ⟨hc, hrest⟩ := nodupKeys_cons hnd
    rw [dlook] at h
    by_cases hk : k₀ = k
    · rw [if_pos hk] at h
      injection h with h
      subst h
      subst hk
      show lookA (updateAttributesFromData dc
          (setA attrs k₀ (projectTop dc v₀)) rest) k₀ = some (projectTop dc v₀)
      rw [lookA_updateAttributes_skip dc rest _ k₀ hc, lookA_setA, if_pos rfl]
    · rw [if_neg hk] at h
      exact lookA_updateAttributes dc rest _ k v hrest h

theorem nodupKeys_mergeFour (f e a r : AList) :
    nodupKeys (mergeFour f e a r) = true := by
  unfold mergeFour
  exact nodupKeys_deepUpdate r _
    (nodupKeys_deepUpdate a _
      (nodupKeys_deepUpdate e _ (nodupKeys_deepUpdate f [] rfl)))

theorem leafAt_eq_some {b : AList} {p : List String} {v : Val} :
    leafAt b p = some v ↔
      getPathVal (Val.vDict b) p = some v ∧ v.isDict = false := by
  unfold leafAt
  cases h : getPathVal (Val.vDict b) p with
  | none => simp
  | some w =>
    by_cases hw : w.isDict = true
    · simp only [hw, if_true]
      constructor
      · intro hh; exact absurd hh (by simp)
      · rintro ⟨h1, h2⟩
        injection h1 with h1
        rw [h1] at hw
        rw [hw] at h2
        exact absurd h2 (by simp)
    · rw [Bool.not_eq_true] at hw
      simp only [hw, if_false]
      constructor
      · intro hh
        injection hh with hh
        subst hh
        exact ⟨rfl, hw⟩
      · rintro ⟨h1, _⟩
        injection h1 with h1
        rw [h1]
        simp

theorem validateAttributeOverride_none_iff (ia : List (String × Bool))
    (d : AList) :
    validateAttributeOverride ia d = none ↔
      ∀ k ∈ dkeys d, callableIn ia k = false := by
  unfold validateAttributeOverride conflictingKeys
  cases h : (dkeys d).filter (fun k => callableIn ia k) with
  | nil =>
    constructor
    · intro _ k hk
      by_contra hc
      rw [Bool.not_eq_false] at hc
      have : k ∈ (dkeys d).filter (fun k => callableIn ia k) :=
        List.mem_filter.mpr ⟨hk, hc⟩
      rw [h] at this
      exact absurd this (List.not_mem_nil k)
    · intro _
      simp [h]
  | cons x xs =>
    constructor
    · intro hh
      simp at hh
    · intro hall
      have : x ∈ (dkeys d).filter (fun k => callableIn ia k) := by
        rw [h]; exact List.mem_cons_self x xs
      have hx := List.mem_filter.mp this
      rw [hall x hx.1] at hx
      exact absurd hx.2 (by simp)

theorem validateAttributeOverride_some (ia : List (String × Bool)) (d : AList)
    (k : String) (hk : k ∈ dkeys d) (hc : callableIn ia k = true) :
    validateAttributeOverride ia d =
      some (sortStrings (conflictingKeys ia d)) := by
  unfold validateAttributeOverride
  have hmem : k ∈ conflictingKeys ia d := by
    unfold conflictingKeys
    exact List.mem_filter.mpr ⟨hk, hc⟩
  cases h : conflictingKeys ia d with
  | nil => rw [h] at hmem; exact absurd hmem (List.not_mem_nil k)
  | cons x xs => simp [h]

/-! ### File-reload helper lemmas -/

theorem loadFromFiles_append (pf : String → Except String AList)
    (xs ys : List String) :
    loadFromFiles pf (xs ++ ys) =
      ys.foldl
        (fun acc f =>
          match pf f with
          | Except.ok nd => deepUpdate acc nd
          | Except.error _ => acc) (loadFromFiles pf xs) := by
  unfold loadFromFiles
  rw [List.foldl_append]

/-- The `(name, callable)` table modelling `dir(self)` of a freshly
initialized `Config` instance together with `callable(getattr(self, ·))`:
the methods defined by the class are callable, the data attributes created
by `__init__` are not.  Members inherited from `object` are omitted — no
claim exercises them. -/
def configInstanceAttrs : List (String × Bool) :=
  [("update", true), ("save", true), ("load_files", true), ("load_args", true),
   ("register_update_callback", true), ("validate_config", true),
   ("shutdown", true), ("print_config", true), ("format_attributes", true),
   ("get_table_view", true), ("_deep_update", true), ("_load_from_files", true),
   ("_load_from_env", true), ("_load_from_args", true),
   ("_update_data_from_all_x_data", true), ("_update_attributes_from_data", true),
   ("_validate_attribute_override", true), ("_is_key_present_recursive", true),
   ("_dict_to_dataclass", true), ("_init_default_logging", true),
   ("_config_file_polling_thread", true), ("_reset", true),
   ("data", false), ("files", false), ("file_stamps", false),
   ("shutdown_flag", false), ("logging", false), ("_use_dataclasses", false),
   ("_file_data", false), ("_env_data", false), ("_args_data", false),
   ("_runtime_update_data", false), ("_args", false),
   ("_update_callbacks", false)]

/-! ### The claims -/

/-- C2: for every target mapping `t` and source mapping `s`, the structural
merge updates `t` so that for each key `k` of `s`: if `s[k]` is a mapping,
`t[k]` becomes the recursive merge of `s[k]` into the previous `t[k]`, or
into an empty mapping when `t[k]` was absent or not a mapping (the
non-mapping value being discarded); otherwise `t[k]` is overwritten with
`s[k]`.  Keys present only in `t` are left unchanged, and sequence values
are replaced atomically, never merged element-wise. -/
theorem c2_structural_merge (d u : AList) (k : String) (hu : wfDict u = true) :
    (∀ uv, dlook u k = some (Val.vDict uv) →
      dlook (deepUpdate d u) k =
        some (Val.vDict (deepUpdate
          (match dlook d k with
           | some (Val.vDict dv) => dv
           | _ => ([] : AList)) uv))) ∧
    (∀ v, dlook u k = some v → v.isDict = false →
      dlook (deepUpdate d u) k = some v) ∧
    (dlook u k = none → dlook (deepUpdate d u) k = dlook d k) ∧
    (∀ l, dlook u k = some (Val.vList l) →
      dlook (deepUpdate d u) k = some (Val.vList l)) := by
  have hnd := nodupKeys_of_wfDict hu
  refine ⟨?_, ?_, ?_, ?_⟩
  · intro uv huv
    rw [dlook_deepUpdate u d k hnd, huv]
    have huvwf : wfDict uv = true := by
      have hw := wfVal_dlook u k _ hu huv
      rw [wfVal] at hw
      exact hw
    cases hdk : dlook d k with
    | none => simp [mergedEntry, hdk]
    | some w =>
      cases w with
      | vDict dv => simp [mergedEntry, hdk]
      | vBool b => simp [mergedEntry, hdk, deepUpdate_nil_left uv huvwf]
      | vInt n => simp [mergedEntry, hdk, deepUpdate_nil_left uv huvwf]
      | vFloat q => simp [mergedEntry, hdk, deepUpdate_nil_left uv huvwf]
      | vStr st => simp [mergedEntry, hdk, deepUpdate_nil_left uv huvwf]
      | vNull => simp [mergedEntry, hdk, deepUpdate_nil_left uv huvwf]
      | vList l => simp [mergedEntry, hdk, deepUpdate_nil_left uv huvwf]
  · intro v hv hvd
    rw [dlook_deepUpdate u d k hnd, hv]
    simp [mergedEntry_of_not_dict d k v hvd]
  · intro hnone
    rw [dlook_deepUpdate u d k hnd, hnone]
  · intro l hl
    rw [dlook_deepUpdate u d k hnd, hl]
    simp [mergedEntry_of_not_dict d k (Val.vList l) rfl]

/-- Witness for C2 at a concrete input. -/
theorem c2_structural_merge_witness :
    wfDict [("x", Val.vDict [("y", Val.vInt 5)])] = true ∧
    dlook (deepUpdate [("a", Val.vInt 1)] [("x", Val.vDict [("y", Val.vInt 5)])])
        "a" = dlook [("a", Val.vInt 1)] "a" := by
  have hwf : wfDict [("x", Val.vDict [("y", Val.vInt 5)])] = true := by
    simp [wfDict, wfVal, containsKey, dlook]
  have h := c2_structural_merge [("a", Val.vInt 1)]
    [("x", Val.vDict [("y", Val.vInt 5)])] "a" hwf
  exact ⟨hwf, h.2.2.1 rfl⟩

/-- C5: scalar coercion is a total, side-effect-free function: every
non-string input is returned unchanged; a string maps to true for
case-insensitive {true,yes,y,1}, to false for {false,no,n,0}, else to a
float if it contains a decimal point and parses as one, else to an integer
if it parses as one, else it stays the original string (a decimal-pointed
string never parses as an integer, so the two branch orders agree); no
input raises.  The spec coercion table is verified at the end. -/
theorem c5_scalar_coercion (v : Val) (s : String) (n : Int) (q : PyFloat) :
    (v.isStr = false → convertValue v = v) ∧
    (pyLower s ∈ ["true", "yes", "y", "1"] →
      convertValue (Val.vStr s) = Val.vBool true) ∧
    (pyLower s ∈ ["false", "no", "n", "0"] →
      convertValue (Val.vStr s) = Val.vBool false) ∧
    (pyLower s ∉ ["true", "yes", "y", "1", "false", "no", "n", "0"] →
      hasDot s = true → pyParseFloat s = some q →
      convertValue (Val.vStr s) = Val.vFloat q) ∧
    (pyLower s ∉ ["true", "yes", "y", "1", "false", "no", "n", "0"] →
      hasDot s = true → pyParseFloat s = none →
      convertValue (Val.vStr s) = Val.vStr s) ∧
    (pyLower s ∉ ["true", "yes", "y", "1", "false", "no", "n", "0"] →
      hasDot s = false → pyParseInt s = some n →
      convertValue (Val.vStr s) = Val.vInt n) ∧
    (pyLower s ∉ ["true", "yes", "y", "1", "false", "no", "n", "0"] →
      hasDot s = false → pyParseInt s = none →
      convertValue (Val.vStr s) = Val.vStr s) ∧
    (hasDot s = true → pyParseInt s = none) ∧
    (convertValue (Val.vStr "true") = Val.vBool true ∧
     convertValue (Val.vStr "0") = Val.vBool false ∧
     convertValue (Val.vStr "3.14") = Val.vFloat ⟨314, -2⟩ ∧
     convertValue (Val.vStr "42") = Val.vInt 42 ∧
     convertValue (Val.vStr "hello") = Val.vStr "hello") := by
  refine ⟨?_, ?_, ?_, ?_, ?_, ?_, ?_, ?_, rfl, rfl, rfl, rfl, rfl⟩
  · intro hv
    cases v <;> simp [Val.isStr] at hv ⊢ <;> (rw [convertValue] <;> simp)
  · intro h
    simp only [List.mem_cons, List.not_mem_nil, or_false] at h
    unfold convertValue
    rcases h with h | h | h | h <;> simp [h]
  · intro h
    simp only [List.mem_cons, List.not_mem_nil, or_false] at h
    unfold convertValue
    rcases h with h | h | h | h <;> simp [h]
  · intro h hdot hq
    simp only [List.mem_cons, List.not_mem_nil, or_false, not_or] at h
    obtain ⟨h1, h2, h3, h4, h5, h6, h7, h8⟩ := h
    unfold convertValue
    simp [h1, h2, h3, h4, h5, h6, h7, h8, hdot, hq]
  · intro h hdot hq
    simp only [List.mem_cons, List.not_mem_nil, or_false, not_or] at h
    obtain ⟨h1, h2, h3, h4, h5, h6, h7, h8⟩ := h
    unfold convertValue
    simp [h1, h2, h3, h4, h5, h6, h7, h8, hdot, hq]
  · intro h hdot hq
    simp only [List.mem_cons, List.not_mem_nil, or_false, not_or] at h
    obtain ⟨h1, h2, h3, h4, h5, h6, h7, h8⟩ := h
    unfold convertValue
    simp [h1, h2, h3, h4, h5, h6, h7, h8, hdot, hq]
  · intro h hdot hq
    simp only [List.mem_cons, List.not_mem_nil, or_false, not_or] at h
    obtain ⟨h1, h2, h3, h4, h5, h6, h7, h8⟩ := h
    unfold convertValue
    simp [h1, h2, h3, h4, h5, h6, h7, h8, hdot, hq]
  · exact pyParseInt_none_of_hasDot s

/-- Witness for C5 at concrete inputs. -/
theorem c5_scalar_coercion_witness :
    Val.isStr (Val.vList [Val.vInt 1]) = false ∧
    convertValue (Val.vList [Val.vInt 1]) = Val.vList [Val.vInt 1] ∧
    pyLower "YES" ∈ ["true", "yes", "y", "1"] ∧
    convertValue (Val.vStr "YES") = Val.vBool true ∧
    convertValue (Val.vStr "7.5") = Val.vFloat ⟨75, -1⟩ := by
  have h₁ := c5_scalar_coercion (Val.vList [Val.vInt 1]) "YES" 0 ⟨0, 0⟩
  have h₂ := c5_scalar_coercion Val.vNull "7.5" 0 ⟨75, -1⟩
  refine ⟨rfl, h₁.1 rfl, by decide, h₁.2.1 (by decide), ?_⟩
  exact h₂.2.2.2.1 (by decide) rfl rfl

theorem isKeyPresent_nil (v : Val) : isKeyPresent v [] = true := by
  cases v <;> rfl

theorem isKeyPresent_cons (v : Val) (part : String) (rest : List String) :
    isKeyPresent v (part :: rest) =
      if part = "%" then
        match v with
        | Val.vDict d =>
            if d.isEmpty then true
            else if rest.isEmpty then true
            else d.all (fun kv => isKeyPresent kv.2 rest)
        | _ => false
      else
        match v with
        | Val.vDict d =>
            match dlook d part with
            | some w => isKeyPresent w rest
            | none => false
        | _ => false := by
  cases v <;> rfl

/-- C3: `validate_config` evaluates each dot-separated pattern recursively
(exhausted path succeeds; a literal segment needs a mapping containing the
key; a `%` segment needs a mapping and succeeds when it is empty or no
segments remain, and otherwise requires every child to satisfy the tail),
raises an error listing all failed patterns, sorted, iff at least one
pattern fails, and does not mutate the namespace. -/
theorem c3_validate_config (data : AList) (keys : List String) :
    (∀ v : Val, isKeyPresent v [] = true) ∧
    (∀ (v : Val) (part : String) (rest : List String), part ≠ "%" →
      (isKeyPresent v (part :: rest) = true ↔
        ∃ d w, v = Val.vDict d ∧ dlook d part = some w ∧
          isKeyPresent w rest = true)) ∧
    (∀ (v : Val) (rest : List String),
      isKeyPresent v ("%" :: rest) = true ↔
        ∃ d, v = Val.vDict d ∧
          (d = [] ∨ rest = [] ∨ ∀ kv ∈ d, isKeyPresent kv.2 rest = true)) ∧
    (validateConfig data keys = none ↔
      ∀ ks ∈ keys, isKeyPresent (Val.vDict data) (splitDots ks) = true) ∧
    (∀ l, validateConfig data keys = some l →
      List.Pairwise (fun a b => strLe a b = true) l ∧
      ∀ ks, (ks ∈ l ↔ ks ∈ keys ∧
        isKeyPresent (Val.vDict data) (splitDots ks) = false)) ∧
    (∀ s : ConfigState, (validateConfigOp s keys).2 = s) := by
  refine ⟨isKeyPresent_nil, ?_, ?_, ?_, ?_, fun _ => rfl⟩
  · intro v part rest hpart
    rw [isKeyPresent_cons, if_neg hpart]
    constructor
    · intro h
      cases v with
      | vDict d =>
        have h2 : (match dlook d part with
            | some w => isKeyPresent w rest
            | none => false) = true := h
        cases hd : dlook d part with
        | none => rw [hd] at h2; simp at h2
        | some w =>
          rw [hd] at h2
          exact ⟨d, w, rfl, hd, h2⟩
      | vBool b => simp at h
      | vInt n => simp at h
      | vFloat q => simp at h
      | vStr st => simp at h
      | vNull => simp at h
      | vList l => simp at h
    · rintro ⟨d, w, rfl, hd, hw⟩
      show (match dlook d part with
        | some w => isKeyPresent w rest
        | none => false) = true
      rw [hd]
      exact hw
  · intro v rest
    rw [isKeyPresent_cons, if_pos rfl]
    constructor
    · intro h
      cases v with
      | vDict d =>
        have h2 : (if d.isEmpty = true then true
            else if rest.isEmpty = true then true
            else d.all (fun kv => isKeyPresent kv.2 rest)) = true := h
        refine ⟨d, rfl, ?_⟩
        by_cases hde : d.isEmpty = true
        · left; exact List.isEmpty_iff.mp hde
        · rw [if_neg hde] at h2
          by_cases hre : rest.isEmpty = true
          · right; left; exact List.isEmpty_iff.mp hre
          · rw [if_neg hre] at h2
            right; right
            exact fun kv hkv => List.all_eq_true.mp h2 kv hkv
      | vBool b => simp at h
      | vInt n => simp at h
      | vFloat q => simp at h
      | vStr st => simp at h
      | vNull => simp at h
      | vList l => simp at h
    · rintro ⟨d, rfl, hcase⟩
      show (if d.isEmpty = true then true
          else if rest.isEmpty = true then true
          else d.all (fun kv => isKeyPresent kv.2 rest)) = true
      rcases hcase with rfl | hre | hall
      · simp
      · subst hre
        by_cases hde : d.isEmpty = true <;> simp [hde]
      · by_cases hde : d.isEmpty = true
        · simp [hde]
        · by_cases hre : rest.isEmpty = true
          · simp [hde, hre]
          · simp [hde, hre, List.all_eq_true.mpr hall]
  · unfold validateConfig
    cases hm : keys.filter
        (fun ks => !(isKeyPresent (Val.vDict data) (splitDots ks))) with
    | nil =>
      constructor
      · intro _ ks hks
        by_contra hc
        rw [Bool.not_eq_true] at hc
        have : ks ∈ keys.filter
            (fun ks => !(isKeyPresent (Val.vDict data) (splitDots ks))) :=
          List.mem_filter.mpr ⟨hks, by rw [hc]; rfl⟩
        rw [hm] at this
        exact absurd this (List.not_mem_nil ks)
      · intro _
        simp [hm]
    | cons x xs =>
      constructor
      · intro hh
        simp at hh
      · intro hall
        have hx : x ∈ keys.filter
            (fun ks => !(isKeyPresent (Val.vDict data) (splitDots ks))) := by
          rw [hm]; exact List.mem_cons_self x xs
        have hx2 := List.mem_filter.mp hx
        rw [hall x hx2.1] at hx2
        exact absurd hx2.2 (by simp)
  · intro l hl
    unfold validateConfig at hl
    cases hm : keys.filter
        (fun ks => !(isKeyPresent (Val.vDict data) (splitDots ks))) with
    | nil => rw [hm] at hl; simp at hl
    | cons x xs =>
      rw [hm] at hl
      simp only [List.isEmpty_cons, if_false, Bool.false_eq_true] at hl
      injection hl with hl
      constructor
      · rw [← hl]; exact sortStrings_pairwise (x :: xs)
      · intro ks
        rw [← hl, mem_sortStrings, ← hm, List.mem_filter]
        constructor
        · rintro ⟨h1, h2⟩
          refine ⟨h1, ?_⟩
          cases hik : isKeyPresent (Val.vDict data) (splitDots ks)
          · rfl
          · rw [hik] at h2; simp at h2
        · rintro ⟨h1, h2⟩
          exact ⟨h1, by rw [h2]; rfl⟩

/-- Witness for C3 at the concrete wildcard examples of the spec. -/
theorem c3_validate_config_witness :
    ("servers" : String) ≠ "%" ∧
    (isKeyPresent
      (Val.vDict [("servers", Val.vDict [("s1", Val.vDict [("address", Val.vStr "x")])])])
      ["servers", "%", "address"] = true ↔
      ∃ d w, (Val.vDict [("servers", Val.vDict [("s1", Val.vDict [("address", Val.vStr "x")])])]) = Val.vDict d ∧
        dlook d "servers" = some w ∧ isKeyPresent w ["%", "address"] = true) ∧
    (validateConfig [("a", Val.vDict [])] ["a.%"] = none ↔
      ∀ ks ∈ ["a.%"],
        isKeyPresent (Val.vDict [("a", Val.vDict [])]) (splitDots ks) = true) := by
  have h := c3_validate_config [("a", Val.vDict [])] ["a.%"]
  exact ⟨by decide,
    (c3_validate_config [] []).2.1
      (Val.vDict [("servers", Val.vDict [("s1", Val.vDict [("address", Val.vStr "x")])])])
      "servers" ["%", "address"] (by decide),
    h.2.2.2.1⟩

/-- C1 (amended): after every update / load-files / load-args operation,
the unified namespace `data` equals the result of structurally merging the
four source buffers into an empty mapping in the fixed order files, env,
args, runtime; and a key whose leaf value is present in more than one
buffer resolves to the leaf of the latest such buffer, provided no buffer
later in the order stores a value at that key or a non-mapping value at a
proper prefix of it.  (The unqualified precedence consequence is refuted
by `c1_precedence_counterexample`.) -/
theorem c1_resolution_order (ia : List (String × Bool)) (dc : Bool)
    (s : ConfigState) (key : String) (value : Val)
    (pf : String → Except String AList) (nf : List String) (ad : AList)
    (f e a r : AList) (p : List String) (v : Val) :
    (((updateOp ia dc s key value).1).data =
      mergeFour ((updateOp ia dc s key value).1).fileData
        ((updateOp ia dc s key value).1).envData
        ((updateOp ia dc s key value).1).argsData
        ((updateOp ia dc s key value).1).runtimeData) ∧
    (((loadFilesOp pf ia dc s nf).1).data =
      mergeFour ((loadFilesOp pf ia dc s nf).1).fileData
        ((loadFilesOp pf ia dc s nf).1).envData
        ((loadFilesOp pf ia dc s nf).1).argsData
        ((loadFilesOp pf ia dc s nf).1).runtimeData) ∧
    (((loadArgsOp ia dc s ad).1).data =
      mergeFour ((loadArgsOp ia dc s ad).1).fileData
        ((loadArgsOp ia dc s ad).1).envData
        ((loadArgsOp ia dc s ad).1).argsData
        ((loadArgsOp ia dc s ad).1).runtimeData) ∧
    (wfDict e = true → wfDict a = true → wfDict r = true →
      ((leafAt e p = some v ∧ leafAt f p ≠ none ∧
          masks a p = false ∧ masks r p = false) ∨
       (leafAt a p = some v ∧ (leafAt f p ≠ none ∨ leafAt e p ≠ none) ∧
          masks r p = false) ∨
       (leafAt r p = some v ∧
          (leafAt f p ≠ none ∨ leafAt e p ≠ none ∨ leafAt a p ≠ none))) →
      getPathVal (Val.vDict (mergeFour f e a r)) p = some v) := by
  refine ⟨?_, ?_, ?_, ?_⟩
  · simp only [updateOp]
    have h := resolveAndProject_data ia dc
      { s with runtimeData :=
          deepUpdate s.runtimeData (nestedSingleton (splitDots key) value) }
    rw [h.1, h.2.1, h.2.2.1, h.2.2.2.1, h.2.2.2.2.1]
  · simp only [loadFilesOp]
    have h := resolveAndProject_data ia dc
      { s with files := s.files ++ nf,
               fileData := loadFromFiles pf (s.files ++ nf) }
    rw [h.1, h.2.1, h.2.2.1, h.2.2.2.1, h.2.2.2.2.1]
  · simp only [loadArgsOp]
    have h := resolveAndProject_data ia dc
      { s with argsData := loadFromArgsDict s.argsData ad }
    rw [h.1, h.2.1, h.2.2.1, h.2.2.2.1, h.2.2.2.2.1]
  · intro hwe hwa hwr hcase
    unfold mergeFour
    rcases hcase with ⟨hleaf, _, hma, hmr⟩ | ⟨hleaf, _, hmr⟩ | ⟨hleaf, _⟩
    · obtain ⟨hget, hdict⟩ := leafAt_eq_some.mp hleaf
      rw [getPathVal_deepUpdate_untouched p r _ hwr hmr,
          getPathVal_deepUpdate_untouched p a _ hwa hma]
      exact getPathVal_deepUpdate_of_leaf p e _ v hwe hget hdict
    · obtain ⟨hget, hdict⟩ := leafAt_eq_some.mp hleaf
      rw [getPathVal_deepUpdate_untouched p r _ hwr hmr]
      exact getPathVal_deepUpdate_of_leaf p a _ v hwa hget hdict
    · obtain ⟨hget, hdict⟩ := leafAt_eq_some.mp hleaf
      exact getPathVal_deepUpdate_of_leaf p r _ v hwr hget hdict

/-- Counterexample to C1 as stated: the leaf at path `a.b` is present in
both the files buffer (value 1) and the env buffer (value 2), so the claim
says the resolved value is the env leaf 2; but the args buffer stores the
scalar 7 at `a`, and the resolved namespace holds no value at `a.b` at
all. -/
theorem c1_precedence_counterexample :
    leafAt [("a", Val.vDict [("b", Val.vInt 1)])] ["a", "b"] =
        some (Val.vInt 1) ∧
    leafAt [("a", Val.vDict [("b", Val.vInt 2)])] ["a", "b"] =
        some (Val.vInt 2) ∧
    getPathVal (Val.vDict (mergeFour
      [("a", Val.vDict [("b", Val.vInt 1)])]
      [("a", Val.vDict [("b", Val.vInt 2)])]
      [("a", Val.vInt 7)] [])) ["a", "b"] = none ∧
    getPathVal (Val.vDict (mergeFour
      [("a", Val.vDict [("b", Val.vInt 1)])]
      [("a", Val.vDict [("b", Val.vInt 2)])]
      [("a", Val.vInt 7)] [])) ["a", "b"] ≠ some (Val.vInt 2) := by
  have hm : mergeFour [("a", Val.vDict [("b", Val.vInt 1)])]
      [("a", Val.vDict [("b", Val.vInt 2)])] [("a", Val.vInt 7)] [] =
      [("a", Val.vInt 7)] := by
    simp [mergeFour, deepUpdate_cons, mergedEntry, dlook, dset]
  refine ⟨rfl, rfl, by rw [hm]; rfl, by rw [hm]; simp [getPathVal, dlook]⟩

/-- Witness for C1 at a concrete input. -/
theorem c1_resolution_order_witness :
    getPathVal (Val.vDict (mergeFour
      [("a", Val.vInt 1)] [("a", Val.vInt 2)] [] [])) ["a"] =
      some (Val.vInt 2) := by
  have h := c1_resolution_order configInstanceAttrs true
    ⟨[], [], [], [], [], [], []⟩ "k" Val.vNull (fun _ => Except.error "e")
    [] [] [("a", Val.vInt 1)] [("a", Val.vInt 2)] [] [] ["a"] (Val.vInt 2)
  refine h.2.2.2 (by simp [wfDict, wfVal, containsKey, dlook])
    (by simp [wfDict]) (by simp [wfDict]) ?_
  left
  refine ⟨rfl, ?_, rfl, rfl⟩
  rw [show leafAt [("a", Val.vInt 1)] ["a"] = some (Val.vInt 1) from rfl]
  simp

/-- C4: if after merging the buffers any top-level key of the unified
namespace names a callable attribute of the engine instance, the resolve
step raises an error listing all such colliding keys, sorted (collected,
not fail-fast), attribute projection does not run, and the four source
buffers together with the rebuilt `data` mapping retain the merged content
(buffer mutation is not rolled back — shown both at the resolve step and
for a runtime update that introduces the collision). -/
theorem c4_collision_aborts_projection (ia : List (String × Bool)) (dc : Bool)
    (s : ConfigState) (key : String) (value : Val)
    (h : ∃ k, k ∈ dkeys (mergeFour s.fileData s.envData s.argsData
        s.runtimeData) ∧ callableIn ia k = true) :
    (∃ l, (resolveAndProject ia dc s).2 = some l ∧
      List.Pairwise (fun a b => strLe a b = true) l ∧
      (∀ k, k ∈ l ↔ k ∈ dkeys (mergeFour s.fileData s.envData s.argsData
          s.runtimeData) ∧ callableIn ia k = true)) ∧
    ((resolveAndProject ia dc s).1).attrs = s.attrs ∧
    ((resolveAndProject ia dc s).1).data =
      mergeFour s.fileData s.envData s.argsData s.runtimeData ∧
    ((resolveAndProject ia dc s).1).fileData = s.fileData ∧
    ((resolveAndProject ia dc s).1).envData = s.envData ∧
    ((resolveAndProject ia dc s).1).argsData = s.argsData ∧
    ((resolveAndProject ia dc s).1).runtimeData = s.runtimeData ∧
    ((updateOp ia dc s key value).1).runtimeData =
      deepUpdate s.runtimeData (nestedSingleton (splitDots key) value) := by
  obtain ⟨k, hk, hc⟩ := h
  have hr := resolveAndProject_data ia dc s
  have hsome := validateAttributeOverride_some ia
    (mergeFour s.fileData s.envData s.argsData s.runtimeData) k hk hc
  have herr : (resolveAndProject ia dc s).2 =
      some (sortStrings (conflictingKeys ia
        (mergeFour s.fileData s.envData s.argsData s.runtimeData))) := by
    rw [hr.2.2.2.2.2.2.1, hsome]
  refine ⟨⟨sortStrings (conflictingKeys ia
      (mergeFour s.fileData s.envData s.argsData s.runtimeData)),
      herr, sortStrings_pairwise _, ?_⟩,
    hr.2.2.2.2.2.2.2.1 _ herr, hr.1, hr.2.1, hr.2.2.1, hr.2.2.2.1,
    hr.2.2.2.2.1, ?_⟩
  · intro k'
    rw [mem_sortStrings]
    unfold conflictingKeys
    rw [List.mem_filter]
  · simp only [updateOp]
    exact (resolveAndProject_data ia dc
      { s with runtimeData :=
          deepUpdate s.runtimeData (nestedSingleton (splitDots key) value)
      }).2.2.2.2.1

/-- Witness for C4: a files buffer carrying the key `update`, which names
a method of the engine. -/
theorem c4_collision_aborts_projection_witness :
    ∃ l, (resolveAndProject configInstanceAttrs true
      ⟨[], [("update", Val.vInt 1)], [], [], [], [], []⟩).2 = some l := by
  have h := c4_collision_aborts_projection configInstanceAttrs true
    ⟨[], [("update", Val.vInt 1)], [], [], [], [], []⟩ "k" Val.vNull ?_
  · obtain ⟨⟨l, hl, _⟩, _⟩ := h
    exact ⟨l, hl⟩
  · refine ⟨"update", ?_, by decide⟩
    have : mergeFour [("update", Val.vInt 1)] [] [] [] =
        [("update", Val.vInt 1)] := by
      simp [mergeFour, deepUpdate_cons, mergedEntry, dlook, dset]
    rw [this]
    decide

/-- C10: the collision check flags only keys whose matching existing
attribute is callable; a resolved namespace whose top-level keys match
only non-callable attributes (for example `data`, `files`,
`shutdown_flag`) raises no error, and the attribute projection rebinds
each such attribute to the (projected) configuration value, overwriting
the engine's internal state. -/
theorem c10_noncallable_keys_projected (ia : List (String × Bool)) (dc : Bool)
    (s : ConfigState) :
    (∀ (d : AList) (k : String),
      k ∈ conflictingKeys ia d ↔ k ∈ dkeys d ∧ callableIn ia k = true) ∧
    ((∀ k ∈ dkeys (mergeFour s.fileData s.envData s.argsData s.runtimeData),
        callableIn ia k = false) →
      (resolveAndProject ia dc s).2 = none ∧
      (∀ k v, dlook (mergeFour s.fileData s.envData s.argsData
            s.runtimeData) k = some v →
        lookA ((resolveAndProject ia dc s).1.attrs) k =
          some (projectTop dc v))) := by
  constructor
  · intro d k
    unfold conflictingKeys
    rw [List.mem_filter]
  · intro hall
    have hr := resolveAndProject_data ia dc s
    have hnone : (resolveAndProject ia dc s).2 = none := by
      rw [hr.2.2.2.2.2.2.1]
      exact (validateAttributeOverride_none_iff ia _).mpr hall
    refine ⟨hnone, ?_⟩
    intro k v hkv
    rw [hr.2.2.2.2.2.2.2.2 hnone]
    exact lookA_updateAttributes dc _ s.attrs k v
      (nodupKeys_mergeFour s.fileData s.envData s.argsData s.runtimeData) hkv

/-- Witness for C10: a files buffer whose keys `data` and `shutdown_flag`
match non-callable attributes; projection rebinds both. -/
theorem c10_noncallable_keys_projected_witness :
    (resolveAndProject configInstanceAttrs false
      ⟨[], [("data", Val.vInt 5), ("shutdown_flag", Val.vBool true)],
        [], [], [], [], []⟩).2 = none := by
  have hm : mergeFour [("data", Val.vInt 5), ("shutdown_flag", Val.vBool true)]
      [] [] [] = [("data", Val.vInt 5), ("shutdown_flag", Val.vBool true)] := by
    simp [mergeFour, deepUpdate_cons, mergedEntry, dlook, dset]
  have h := (c10_noncallable_keys_projected configInstanceAttrs false
    ⟨[], [("data", Val.vInt 5), ("shutdown_flag", Val.vBool true)],
      [], [], [], [], []⟩).2 ?_
  · exact h.1
  · intro k hk
    rw [hm] at hk
    simp only [dkeys, List.map_cons, List.map_nil, List.mem_cons,
      List.not_mem_nil, or_false] at hk
    rcases hk with h1 | h1
    · rw [h1]; decide
    · rw [h1]; decide

/-- C7: every file (re)load clears the `files` buffer and rebuilds it by
structurally merging each tracked file's parsed content in list order; a
file that fails to open or parse contributes nothing and processing of
the remaining files continues; a leaf of the last file's content always
overrides earlier files. -/
theorem c7_file_reload (pf : String → Except String AList)
    (ia : List (String × Bool)) (dc : Bool) (s : ConfigState)
    (nf : List String) :
    (((loadFilesOp pf ia dc s nf).1).files = s.files ++ nf ∧
     ((loadFilesOp pf ia dc s nf).1).fileData =
       loadFromFiles pf (s.files ++ nf)) ∧
    (∀ (xs ys : List String) (f err : String),
      pf f = Except.error err →
      loadFromFiles pf (xs ++ f :: ys) = loadFromFiles pf (xs ++ ys)) ∧
    (∀ (files : List String) (flast : String) (dl : AList)
        (p : List String) (v : Val),
      pf flast = Except.ok dl → wfDict dl = true → leafAt dl p = some v →
      getPathVal (Val.vDict (loadFromFiles pf (files ++ [flast]))) p =
        some v) := by
  refine ⟨⟨?_, ?_⟩, ?_, ?_⟩
  · simp only [loadFilesOp]
    exact (resolveAndProject_data ia dc
      { s with files := s.files ++ nf,
               fileData := loadFromFiles pf (s.files ++ nf) }).2.2.2.2.2.1
  · simp only [loadFilesOp]
    exact (resolveAndProject_data ia dc
      { s with files := s.files ++ nf,
               fileData := loadFromFiles pf (s.files ++ nf) }).2.1
  · intro xs ys f err hf
    unfold loadFromFiles
    rw [List.foldl_append, List.foldl_append, List.foldl_cons]
    simp [hf]
  · intro files flast dl p v hok hwf hleaf
    rw [loadFromFiles_append]
    simp only [List.foldl_cons, List.foldl_nil, hok]
    obtain ⟨hget, hdict⟩ := leafAt_eq_some.mp hleaf
    exact getPathVal_deepUpdate_of_leaf p dl _ v hwf hget hdict

/-- Witness for C7: a failing middle file is skipped, and the last file's
leaf survives. -/
theorem c7_file_reload_witness :
    loadFromFiles
        (fun f => if f = "bad.yaml" then Except.error "boom"
          else Except.ok [("p", Val.vInt 1)])
        (["good.yaml"] ++ "bad.yaml" :: ["last.yaml"]) =
      loadFromFiles
        (fun f => if f = "bad.yaml" then Except.error "boom"
          else Except.ok [("p", Val.vInt 1)])
        (["good.yaml"] ++ ["last.yaml"]) ∧
    getPathVal (Val.vDict (loadFromFiles
        (fun f => if f = "bad.yaml" then Except.error "boom"
          else Except.ok [("p", Val.vInt 1)])
        (["good.yaml"] ++ ["last.yaml"]))) ["p"] = some (Val.vInt 1) := by
  have h := c7_file_reload
    (fun f => if f = "bad.yaml" then Except.error "boom"
      else Except.ok [("p", Val.vInt 1)])
    configInstanceAttrs true ⟨[], [], [], [], [], [], []⟩ []
  refine ⟨h.2.1 ["good.yaml"] ["last.yaml"] "bad.yaml" "boom" rfl, ?_⟩
  exact h.2.2 ["good.yaml"] "last.yaml" [("p", Val.vInt 1)] ["p"]
    (Val.vInt 1) rfl (by simp [wfDict, wfVal, containsKey, dlook]) rfl

theorem regLook_append_single {C I : Type} [DecidableEq C]
    (l : List (C × I)) (c k : C) (i : I) :
    regLook (l ++ [(c, i)]) k =
      match regLook l k with
      | some j => some j
      | none => if c = k then some i else none := by
  induction l with
  | nil => simp [regLook]
  | cons x rest ih =>
    obtain ⟨c₀, i₀⟩ := x
    by_cases h : c₀ = k
    · simp [regLook, h]
    · simp [regLook, h, ih]

/-- C9: the engine is a per-class singleton — after the first construction
every later `Config(...)` call returns the same already-constructed
instance, ignoring all arguments and loading nothing new; calls for a
different class leave the registry entry untouched; `_reset()` clears the
registry so the next call constructs afresh. -/
theorem c9_singleton (C I A : Type) [DecidableEq C] (mk : C → A → I)
    (reg : List (C × I)) (cls cls' : C) (i : I) (a₀ a₁ : A) :
    (regLook reg cls = some i → singletonCall mk reg cls a₁ = (i, reg)) ∧
    (∀ args : A,
      singletonCall mk (singletonCall mk [] cls a₀).2 cls args =
        ((singletonCall mk [] cls a₀).1, (singletonCall mk [] cls a₀).2)) ∧
    (cls' ≠ cls →
      regLook (singletonCall mk reg cls' a₁).2 cls = regLook reg cls) ∧
    (singletonCall mk (singletonReset reg) cls a₁ =
      (mk cls a₁, [(cls, mk cls a₁)])) := by
  refine ⟨?_, ?_, ?_, ?_⟩
  · intro h
    unfold singletonCall
    rw [h]
  · intro args
    simp [singletonCall, regLook]
  · intro hne
    unfold singletonCall
    cases hc : regLook reg cls' with
    | some j => rfl
    | none =>
      simp only []
      rw [regLook_append_single]
      cases hk : regLook reg cls with
      | some j => rfl
      | none => simp [hne]
  · simp [singletonCall, singletonReset, regLook]

/-- Witness for C9 at concrete types and registry. -/
theorem c9_singleton_witness :
    singletonCall (fun (_ : String) (l : List String) => l.length)
      [("Config", 3)] "Config" ["other.yaml"] = (3, [("Config", 3)]) ∧
    regLook (singletonCall (fun (_ : String) (l : List String) => l.length)
      [("Config", 3)] "Settings" ["x"]).2 "Config" = some 3 := by
  have h := c9_singleton String Nat (List String)
    (fun _ l => l.length) [("Config", 3)] "Config" "Settings" 3
    ["base.yaml"] ["other.yaml"]
  exact ⟨h.1 rfl, (h.2.2.1 (by decide)).trans rfl⟩

/-- The attribute namespace of an engine whose configuration holds the
single key `host`: the `__init__`-created data attributes plus the
projected `host`; there is no attribute `config` and no attribute `file`
(the real ones are `data` and `files`). -/
def saveExampleAttrs : List (String × AttrVal) :=
  [("data", AttrVal.ofVal (Val.vDict [("host", Val.vStr "x")])),
   ("files", AttrVal.ofVal (Val.vList [Val.vStr "cfg.yaml"])),
   ("shutdown_flag", AttrVal.ofVal (Val.vBool false)),
   ("host", AttrVal.ofVal (Val.vStr "x"))]

/-- C6 is a code bug: `save` dumps `self.config` and defaults its path to
`self.file`, attributes that `__init__` never creates (the unified
namespace lives in `data` and the path list in `files`), so on any
ordinary engine state the `AttributeError` is caught and logged and the
unified namespace is never written — contradicting both the claim and the
method's own docstring. -/
theorem c6_save_never_writes_namespace :
    save saveExampleAttrs (some "out.yaml") "yaml" =
      SaveOutcome.errorLogged "AttributeError: no attribute config" ∧
    save saveExampleAttrs none "yaml" =
      SaveOutcome.errorLogged "AttributeError: no attribute file" ∧
    (∀ (p fmt : String) (c : Val),
      save saveExampleAttrs (some "out.yaml") "yaml" ≠
        SaveOutcome.wrote p fmt c) := by
  refine ⟨rfl, rfl, ?_⟩
  intro p fmt c h
  rw [show save saveExampleAttrs (some "out.yaml") "yaml" =
    SaveOutcome.errorLogged "AttributeError: no attribute config" from rfl] at h
  exact SaveOutcome.noConfusion h

/-- C8 (amended): after a watch-loop cycle that detects a changed file,
the files buffer is rebuilt, the namespace re-resolved, and — provided the
re-resolution raises no attribute-collision error — every registered
callback is invoked exactly once, in registration order, with a raising
callback merely logged so the remaining callbacks still run.  (When the
re-resolution does raise, the callbacks are never invoked:
`c8_watch_cycle_counterexample`.) -/
theorem c8_watch_cycle (env : PollEnv) (ia : List (String × Bool)) (dc : Bool)
    (s : ConfigState) (stamps : List (String × Int)) (cbs : List Callback)
    (hreload : (checkStamps env s.files stamps).2 = true)
    (hnocoll : validateAttributeOverride ia
      (mergeFour (loadFromFiles env.parseFile s.files) s.envData s.argsData
        s.runtimeData) = none) :
    (pollCycle env ia dc s stamps cbs).reloadNeeded = true ∧
    ((pollCycle env ia dc s stamps cbs).state).fileData =
      loadFromFiles env.parseFile s.files ∧
    ((pollCycle env ia dc s stamps cbs).state).data =
      mergeFour (loadFromFiles env.parseFile s.files) s.envData s.argsData
        s.runtimeData ∧
    (pollCycle env ia dc s stamps cbs).callbackTrace =
      some (runCallbacks cbs) ∧
    (runCallbacks cbs).length = cbs.length ∧
    (∀ (xs ys : List Callback) (e : String), cbs = xs ++ Except.error e :: ys →
      runCallbacks cbs = runCallbacks xs ++ some e :: runCallbacks ys) := by
  have hr := resolveAndProject_data ia dc
    { s with fileData := loadFromFiles env.parseFile s.files }
  have herr : (resolveAndProject ia dc
      { s with fileData := loadFromFiles env.parseFile s.files }).2 = none := by
    rw [hr.2.2.2.2.2.2.1]
    exact hnocoll
  simp only [pollCycle]
  rw [hreload]
  simp only [if_true]
  cases hrap : resolveAndProject ia dc
      { s with fileData := loadFromFiles env.parseFile s.files } with
  | mk s₂ err =>
    cases err with
    | some l =>
      rw [hrap] at herr
      exact absurd herr (by simp)
    | none =>
      rw [hrap] at hr
      refine ⟨rfl, ?_, ?_, rfl, by simp [runCallbacks], ?_⟩
      · exact hr.2.1
      · exact hr.1
      · intro xs ys e hcbs
        rw [hcbs]
        simp [runCallbacks]

/-- Counterexample to C8 as stated: a cycle detects the change, rebuilds
the buffer and re-resolves, but the reloaded file carries the key
`update`, the collision check raises, and the registered callback is
never invoked. -/
theorem c8_watch_cycle_counterexample :
    (pollCycle
      ⟨fun _ => true, fun _ => 1,
        fun _ => Except.ok [("update", Val.vInt 1)]⟩
      configInstanceAttrs true
      ⟨[], [], [], [], [], ["cfg.yaml"], []⟩ [] [Except.ok ()]).reloadNeeded =
        true ∧
    (pollCycle
      ⟨fun _ => true, fun _ => 1,
        fun _ => Except.ok [("update", Val.vInt 1)]⟩
      configInstanceAttrs true
      ⟨[], [], [], [], [], ["cfg.yaml"], []⟩ [] [Except.ok ()]).collisionErr =
        some ["update"] ∧
    (pollCycle
      ⟨fun _ => true, fun _ => 1,
        fun _ => Except.ok [("update", Val.vInt 1)]⟩
      configInstanceAttrs true
      ⟨[], [], [], [], [], ["cfg.yaml"], []⟩ [] [Except.ok ()]).callbackTrace =
        none := by
  have hload : loadFromFiles
      (fun _ => Except.ok [("update", Val.vInt 1)]) ["cfg.yaml"] =
      [("update", Val.vInt 1)] := by
    simp [loadFromFiles, deepUpdate_cons, mergedEntry, dlook, dset]
  have hmerge : mergeFour [("update", Val.vInt 1)] [] [] [] =
      [("update", Val.vInt 1)] := by
    simp [mergeFour, deepUpdate_cons, mergedEntry, dlook, dset]
  have hval : validateAttributeOverride configInstanceAttrs
      [("update", Val.vInt 1)] = some ["update"] := by decide
  have hrap : resolveAndProject configInstanceAttrs true
      ⟨[], [("update", Val.vInt 1)], [], [], [], ["cfg.yaml"], []⟩ =
      (⟨[("update", Val.vInt 1)], [("update", Val.vInt 1)], [], [], [],
        ["cfg.yaml"], []⟩, some ["update"]) := by
    simp [resolveAndProject, updateDataFromAllXData, hmerge, hval]
  simp only [pollCycle]
  rw [show (checkStamps
      ⟨fun _ => true, fun _ => 1,
        fun _ => Except.ok [("update", Val.vInt 1)]⟩
      ["cfg.yaml"] []).2 = true from rfl]
  simp only [if_true]
  rw [show ({ (⟨[], [], [], [], [], ["cfg.yaml"], []⟩ : ConfigState) with
      fileData := loadFromFiles
        (fun _ => Except.ok [("update", Val.vInt 1)]) ["cfg.yaml"] } :
      ConfigState) =
    ⟨[], [("update", Val.vInt 1)], [], [], [], ["cfg.yaml"], []⟩ from by
      rw [hload]]
  rw [hrap]
  exact ⟨rfl, rfl, rfl⟩

/-- Witness for C8 at a concrete input: the failing callback is logged and
the sibling still runs. -/
theorem c8_watch_cycle_witness :
    (pollCycle
      ⟨fun _ => true, fun _ => 1, fun _ => Except.ok [("host", Val.vStr "x")]⟩
      configInstanceAttrs true
      ⟨[], [], [], [], [], ["cfg.yaml"], []⟩ []
      [Except.error "boom", Except.ok ()]).callbackTrace =
      some [some "boom", none] := by
  have hload : loadFromFiles
      (fun _ => Except.ok [("host", Val.vStr "x")]) ["cfg.yaml"] =
      [("host", Val.vStr "x")] := by
    simp [loadFromFiles, deepUpdate_cons, mergedEntry, dlook, dset]
  have hmerge : mergeFour (loadFromFiles
      (fun _ => Except.ok [("host", Val.vStr "x")]) ["cfg.yaml"]) [] [] [] =
      [("host", Val.vStr "x")] := by
    rw [hload]
    simp [mergeFour, deepUpdate_cons, mergedEntry, dlook, dset]
  have h := c8_watch_cycle
    ⟨fun _ => true, fun _ => 1, fun _ => Except.ok [("host", Val.vStr "x")]⟩
    configInstanceAttrs true
    ⟨[], [], [], [], [], ["cfg.yaml"], []⟩ []
    [Except.error "boom", Except.ok ()] rfl
    (by rw [show mergeFour (loadFromFiles
        (fun _ => Except.ok [("host", Val.vStr "x")]) ["cfg.yaml"])
        [] [] [] = [("host", Val.vStr "x")] from hmerge]; decide)
  rw [h.2.2.2.1]
  rfl

end Kimiconfig
